import Mathlib

/-!
Verification development for the scoring core of a cross-browser test-result
analysis repository (`lib/browser-specific.js` and `lib/browser-pass-rate.js`).

The JavaScript source is shallowly embedded as follows:
* statuses are the literal strings the code compares against;
* a test's optional `subtests` array is an `Option (List SubtestResult)`;
* a result tree is a nested inductive with association lists for its `tests`
  and `trees` objects (object keys are unique; `Object.keys` enumerates them
  and the code sorts the key array, which we model by sorting a copy of the
  association list by key);
* JavaScript numbers used for scores are modelled as `ℚ` (the code counts in
  integers and divides once, so the float arithmetic is exact there);
* the `while` merge loops are modelled with an explicit fuel parameter.  The
  fuel is needed because the loops do not terminate for an empty browser
  list (`[].every(...)` is `true` and no iterator advances); with at least
  one browser every iteration drops at least one element, and a sufficiency
  theorem below recovers termination;
* each live `IteratorHelper` cursor is represented by the not-yet-consumed
  suffix of its sorted key/value sequence: `hasNext()` is nonemptiness,
  `value()`/`key()` read the head and `next()` drops it.  The
  `IteratorHelper` class itself is also embedded directly (constructor and
  cursor state) for the claims that are about the class rather than the
  loops that use it;
* the reference-equality (`==`) fast-path test on result objects is modelled
  by structural equality: the upstream content-addressed loader deduplicates
  structurally identical nodes into one reference, which is exactly when the
  model's comparison succeeds.
-/

/-- One subtest result: `{name, status}` (the `message` field is never read
by the scoring core and is omitted). -/
structure SubtestResult where
  name : String
  status : String
deriving DecidableEq

/-- One test result: `{status, subtests}`; `subtests` is absent (`none`) for
single-unit tests such as reftests. -/
structure TestResult where
  status : String
  subtests : Option (List SubtestResult)
deriving DecidableEq

/-- The test-level status strings admitted at ingestion. -/
def testStatuses : List String :=
  ["CRASH", "ERROR", "FAIL", "OK", "PASS", "SKIP", "TIMEOUT"]

/-- The subtest-level status strings admitted at ingestion. -/
def subtestStatuses : List String :=
  ["ERROR", "FAIL", "NOTRUN", "PASS", "TIMEOUT"]

/-- One directory level of a result tree: the `tests` object maps test names
to results and the `trees` object maps directory names to subtrees.  Keys of
a JavaScript object are unique; theorems that need this carry a `Nodup`
hypothesis on the key lists. -/
inductive ResultTree : Type where
  | mk (tests : List (String × TestResult)) (trees : List (String × ResultTree))

mutual

def ResultTree.decEq : (a b : ResultTree) → Decidable (a = b)
  | .mk ts1 trs1, .mk ts2 trs2 =>
    match (inferInstance : Decidable (ts1 = ts2)), ResultTree.decEqList trs1 trs2 with
    | isTrue h1, isTrue h2 => isTrue (by rw [h1, h2])
    | isFalse h1, _ => isFalse (fun h => by cases h; exact h1 rfl)
    | _, isFalse h2 => isFalse (fun h => by cases h; exact h2 rfl)

def ResultTree.decEqList : (a b : List (String × ResultTree)) → Decidable (a = b)
  | [], [] => isTrue rfl
  | [], _ :: _ => isFalse (by simp)
  | _ :: _, [] => isFalse (by simp)
  | (n1, t1) :: r1, (n2, t2) :: r2 =>
    match (inferInstance : Decidable (n1 = n2)), ResultTree.decEq t1 t2,
        ResultTree.decEqList r1 r2 with
    | isTrue h1, isTrue h2, isTrue h3 => isTrue (by rw [h1, h2, h3])
    | isFalse h1, _, _ =>
      isFalse (fun h => by injection h with ha hb; injection ha; contradiction)
    | _, isFalse h2, _ =>
      isFalse (fun h => by injection h with ha hb; injection ha; contradiction)
    | _, _, isFalse h3 => isFalse (fun h => by injection h with ha hb; contradiction)

end

instance : DecidableEq ResultTree := ResultTree.decEq

/-- The `tests` object of a tree node. -/
def ResultTree.tests : ResultTree → List (String × TestResult)
  | .mk tests _ => tests

/-- The `trees` object of a tree node. -/
def ResultTree.trees : ResultTree → List (String × ResultTree)
  | .mk _ trees => trees

/-- One run: `{browser_name, tree}`. -/
structure Run where
  browser_name : String
  tree : ResultTree

/-! ### The `IteratorHelper` class

`lib/browser-specific.js` defines a cursor over either an `Array` or an
`Object`.  The constructor stores `arrOrObject` and, for an array, sorts the
array itself in place; for an object it sorts a fresh copy of the key list
(`Object.keys` allocates a new array), leaving the object untouched. -/

/-- The observable state of an `IteratorHelper` instance.  `keys = none`
corresponds to the `Array` case (`this.keys === null`). -/
structure IteratorHelper (α : Type) where
  currentIndex : Nat
  maxIndex : Nat
  values : List α
  objectValues : List (String × α)
  keys : Option (List String)

/-- `new IteratorHelper(arr, cmp)` for an `Array` argument.  The constructor
executes `this.values.sort(comparatorFunc)`, which sorts the caller's array
in place; the second component of the result is the state of the caller's
array after the call. -/
def IteratorHelper.ofArray (arr : List α) (r : α → α → Prop) [DecidableRel r] :
    IteratorHelper α × List α :=
  let sorted := List.insertionSort r arr
  (⟨0, arr.length, sorted, [], none⟩, sorted)

/-- `new IteratorHelper(obj, cmp)` for an `Object` argument: `Object.keys`
copies the keys into a fresh array, which is then sorted; the object itself
is not written to, so the second component (the state of the caller's object
after the call) is the argument itself. -/
def IteratorHelper.ofObject (obj : List (String × α)) (r : String → String → Prop)
    [DecidableRel r] : IteratorHelper α × List (String × α) :=
  (⟨0, obj.length, [], obj, some (List.insertionSort r (obj.map Prod.fst))⟩, obj)

/-- `hasNext()`. -/
def IteratorHelper.hasNext (it : IteratorHelper α) : Bool :=
  it.currentIndex < it.maxIndex

/-- `next()`: throws (`Except.error`, leaving the state untouched) when the
cursor is exhausted, otherwise increments `currentIndex`.  The first
component is the outcome, the second the state of the object after the
call. -/
def IteratorHelper.next (it : IteratorHelper α) :
    Except String Unit × IteratorHelper α :=
  if it.hasNext then (Except.ok (), { it with currentIndex := it.currentIndex + 1 })
  else (Except.error "Cannot move next; out of values", it)

/-- `currentKey()`: throws for an array-backed cursor. -/
def IteratorHelper.currentKey (it : IteratorHelper α) : Except String String :=
  match it.keys with
  | none => Except.error "Cannot get key of an Array iteration"
  | some ks => Except.ok (ks.getD it.currentIndex "")

/-! ### The fueled k-way merge loop

All three `while (every iterator hasNext)` loops in `lib/browser-specific.js`
(tests at a level, subtrees at a level, subtests of a test) share one shape,
embedded once, generically:

* `key` projects the comparison key of a cursor element (`currentKey()` for
  object cursors, `value().name` for the subtest array cursors);
* `val` projects what the `==` identity fast path compares
  (`currentValue()`); the subtest loop has no fast path (`fast = false`);
* `act` is the body run when all cursors are aligned on one key;
* one fuel unit is spent per iteration.  With an empty cursor list the
  JavaScript loop spins forever (`[].every` is `true`, `forEach` advances
  nothing), which the model renders as `none` for every fuel.
-/

/-- Comparison keys.  `localeCompare` induces a total order on names; it is
modelled as the lexicographic order on the strings' character sequences
(`String.data`), for which Lean's list order is used. -/
def nameKey (s : String) : List Char := s.data

/-- The scan `for (i = 1; ...) if (key_i < smallest) ...` that finds the
(first) cursor holding the smallest current key.  `rest` is the list of
heads after index `bestIdx`'s competitors so far; `i` is the index of the
head of `rest`. -/
def findMinIdx (key : α → List Char) : List α → List Char → Nat → Nat → Nat
  | [], _, bestIdx, _ => bestIdx
  | h :: rest, best, bestIdx, i =>
    if key h < best then findMinIdx key rest (key h) i (i + 1)
    else findMinIdx key rest best bestIdx (i + 1)

/-- `cursors[j].next()`: drop the head of the `j`-th cursor only. -/
def dropHeadAt (cursors : List (List α)) (j : Nat) : List (List α) :=
  cursors.mapIdx (fun i c => if i = j then c.tail else c)

/-- The generic fueled merge loop described above. -/
def mergeLoopFuel (key : α → List Char) (val : α → β) [DecidableEq β] (fast : Bool)
    (act : List α → σ → Option σ) : Nat → List (List α) → σ → Option σ
  | 0, _, _ => none
  | fuel + 1, cursors, st =>
    match cursors.mapM List.head? with
    | none => some st
    | some heads =>
      match heads with
      | [] => mergeLoopFuel key val fast act fuel cursors st
      | h0 :: _ =>
        if fast && heads.all (fun x => decide (val x = val h0)) then
          mergeLoopFuel key val fast act fuel (cursors.map List.tail) st
        else if heads.all (fun x => decide (key x = key h0)) then
          match act heads st with
          | none => none
          | some st' => mergeLoopFuel key val fast act fuel (cursors.map List.tail) st'
        else
          mergeLoopFuel key val fast act fuel
            (dropHeadAt cursors (findMinIdx key heads.tail (key h0) 0 1)) st

/-! ### The browser-specific-failure scorer -/

/-- The comparator `(s1, s2) => s1.name.localeCompare(s2.name)`, modelled as
the lexicographic order on names. -/
def subtestLe (s1 s2 : SubtestResult) : Prop := nameKey s1.name ≤ nameKey s2.name

instance : DecidableRel subtestLe := fun s1 s2 =>
  (inferInstance : Decidable (nameKey s1.name ≤ nameKey s2.name))

instance : IsTotal SubtestResult subtestLe :=
  ⟨fun s1 s2 => le_total (nameKey s1.name) (nameKey s2.name)⟩

instance : IsTrans SubtestResult subtestLe :=
  ⟨fun _ _ _ h1 h2 => le_trans h1 h2⟩

/-- The comparator `(k1, k2) => k1.localeCompare(k2)` applied to the entries
of an object, ordering them by key. -/
def keyLe {α : Type} (a b : String × α) : Prop := nameKey a.1 ≤ nameKey b.1

instance {α : Type} : DecidableRel (keyLe (α := α)) := fun a b =>
  (inferInstance : Decidable (nameKey a.1 ≤ nameKey b.1))

instance {α : Type} : IsTotal (String × α) keyLe :=
  ⟨fun a b => le_total (nameKey a.1) (nameKey b.1)⟩

instance {α : Type} : IsTrans (String × α) keyLe :=
  ⟨fun _ _ _ h1 h2 => le_trans h1 h2⟩

/-- `scores[i] += x`. -/
def addAt : List ℚ → Nat → ℚ → List ℚ
  | [], _, _ => []
  | v :: rest, 0, x => (v + x) :: rest
  | v :: rest, j + 1, x => v :: addAt rest j x

/-- `counts[i] += 1` for the integer subtest counters. -/
def bumpAt : List Nat → Nat → List Nat
  | [], _ => []
  | v :: rest, 0 => (v + 1) :: rest
  | v :: rest, j + 1 => v :: bumpAt rest j

/-- The indices `i` with `p (l[i])`: the loop
`for (i...) if (p) failed.push(i)`. -/
def failedIndices (p : α → Bool) (l : List α) : List Nat :=
  (l.enum.filter (fun x => p x.2)).map Prod.fst

/-- The body of the subtest `while` loop at an aligned subtest: increment the
denominator, and if exactly one browser's status is the literal `FAIL`,
increment that browser's count. -/
def subtestAct (g : List SubtestResult) (st : Nat × List Nat) : Option (Nat × List Nat) :=
  match failedIndices (fun s => s.status == "FAIL") g with
  | [i] => some (st.1 + 1, bumpAt st.2 i)
  | _ => some (st.1 + 1, st.2)

/-- `t.subtests` normalised to a list: `!t.subtests || t.subtests.length == 0`
is emptiness of this list. -/
def subtestsOf (t : TestResult) : List SubtestResult :=
  t.subtests.getD []

/-- `scoreTest(browserTests, scores)` from `lib/browser-specific.js`: scores
one aligned test for all browsers and returns the updated `scores`.

The subtest branch runs the merge loop with fuel `total subtest count + 1`,
which the sufficiency theorem below shows is enough whenever the branch is
reachable (it requires at least one browser); the `none` fallback is dead
code kept only to make the definition total. -/
def scoreTest (browserTests : List TestResult) (scores : List ℚ) : List ℚ :=
  if browserTests.all (fun t => (subtestsOf t).isEmpty) then
    let failed := failedIndices (fun t => !(t.status == "PASS")) browserTests
    match failed with
    | [i] => addAt scores i 1
    | _ => scores
  else if browserTests.all (fun t => !(subtestsOf t).isEmpty) then
    let cursors := browserTests.map (fun t => List.insertionSort subtestLe (subtestsOf t))
    let fuel := (cursors.map List.length).sum + 1
    match mergeLoopFuel (fun s => nameKey s.name) id false subtestAct fuel cursors
        (0, List.replicate browserTests.length 0) with
    | some (denominator, counts) =>
      if 0 < denominator then
        (scores.zip counts).map (fun p => p.1 + (p.2 : ℚ) / (denominator : ℚ))
      else scores
    | none => scores
  else scores

/-- The `tests` object of a node as the sorted entry sequence the tests-level
`IteratorHelper` iterates over. -/
def sortedTests (t : ResultTree) : List (String × TestResult) :=
  List.insertionSort keyLe t.tests

/-- The `trees` object of a node as the sorted entry sequence the
subtrees-level `IteratorHelper` iterates over. -/
def sortedTrees (t : ResultTree) : List (String × ResultTree) :=
  List.insertionSort keyLe t.trees

/-- `walkTrees(browserTrees, scores)`: both merge loops of one tree level
followed by recursion into aligned subtrees.  `fast = true` is the source
code; `fast = false` is the same walk with the identity fast path removed,
used to state the spec's assertion that the fast path is only an
optimization. -/
def walkTreesGenFuel (fast : Bool) : Nat → List ResultTree → List ℚ → Option (List ℚ)
  | 0, _, _ => none
  | fuel + 1, trees, scores =>
    match mergeLoopFuel (fun p => nameKey p.1) Prod.snd fast
        (fun g st => some (scoreTest (g.map Prod.snd) st)) fuel
        (trees.map sortedTests) scores with
    | none => none
    | some s =>
      mergeLoopFuel (fun p => nameKey p.1) Prod.snd fast
        (fun g st => walkTreesGenFuel fast fuel (g.map Prod.snd) st) fuel
        (trees.map sortedTrees) s

/-! ### Run validation and the public entry points -/

/-- The three exceptions `scoreBrowserSpecificFailures` (and the identical
prologue of `scoreBrowserPassRates`) can throw. -/
inductive ValidationError : Type where
  | unexpectedBrowser (name : String)
  | duplicateBrowser (name : String)
  | missingBrowser (names : List String)
deriving DecidableEq

/-- The validation loop: `expected` models the `expectedBrowsers` set as its
insertion-ordered element list (unique by the `Set` invariant), `seen` the
`seenBrowsers` set built so far. -/
def validateLoop (expected : List String) : List String → List Run →
    Except ValidationError Unit
  | seen, [] =>
    if seen.length ≠ expected.length then
      Except.error (.missingBrowser (expected.filter (fun x => x ∉ seen)))
    else Except.ok ()
  | seen, run :: rest =>
    if run.browser_name ∉ expected then
      Except.error (.unexpectedBrowser run.browser_name)
    else if run.browser_name ∈ seen then
      Except.error (.duplicateBrowser run.browser_name)
    else validateLoop expected (seen ++ [run.browser_name]) rest

/-- The browser-set validation shared verbatim by both scorers. -/
def validateRuns (runs : List Run) (expected : List String) :
    Except ValidationError Unit :=
  validateLoop expected [] runs

/-- `scoreBrowserSpecificFailures(runs, expectedBrowsers)`.  `Except.error`
is a thrown validation error; `Except.ok none` means the walk did not finish
within `fuel` (with nonempty `runs` a sufficient fuel exists, but with empty
`runs` the source loops forever); `Except.ok (some m)` is the returned map
as an association list in run order. -/
def scoreBrowserSpecificFailures (fuel : Nat) (runs : List Run)
    (expected : List String) : Except ValidationError (Option (List (String × ℚ))) :=
  match validateRuns runs expected with
  | Except.error e => Except.error e
  | Except.ok () =>
    match walkTreesGenFuel true fuel (runs.map Run.tree)
        (List.replicate runs.length 0) with
    | none => Except.ok none
    | some scores => Except.ok (some ((runs.map Run.browser_name).zip scores))

/-- `scoreBrowserSpecificFailures` with the same-node-identity fast path of
`walkTrees` removed, used to test the spec's assertion that the fast path is
purely an optimization. -/
def scoreBrowserSpecificFailuresNoFast (fuel : Nat) (runs : List Run)
    (expected : List String) : Except ValidationError (Option (List (String × ℚ))) :=
  match validateRuns runs expected with
  | Except.error e => Except.error e
  | Except.ok () =>
    match walkTreesGenFuel false fuel (runs.map Run.tree)
        (List.replicate runs.length 0) with
    | none => Except.ok none
    | some scores => Except.ok (some ((runs.map Run.browser_name).zip scores))

/-! ### The pass-rate scorer (`lib/browser-pass-rate.js`)

The identity-keyed memoization caches are omitted: they are keyed by the
loader's content identities and only replay the score already computed for
a structurally identical node, so the returned value is unchanged. -/

/-- `scoreSubtests(test)`: count passing subtests, divide once. -/
def scoreSubtests (t : TestResult) : ℚ :=
  let count := ((subtestsOf t).filter (fun s => s.status == "PASS")).length
  let denominator := (subtestsOf t).length
  if denominator = 0 then 0 else (count : ℚ) / (denominator : ℚ)

/-- `scoreTest(test)` of the pass-rate scorer. -/
def scorePassRateTest (t : TestResult) : ℚ :=
  if !(subtestsOf t).isEmpty then scoreSubtests t
  else if t.status == "PASS" then 1 else 0

mutual

/-- `walkTree(tree)`: sum of the test scores at this level plus the scores
of all subtrees. -/
def walkTree : ResultTree → ℚ
  | .mk tests trees => walkTreeTests tests + walkTreeSubtrees trees

/-- The loop `for (testName in tree.tests) score += scoreTest(...)`. -/
def walkTreeTests : List (String × TestResult) → ℚ
  | [] => 0
  | (_, t) :: rest => scorePassRateTest t + walkTreeTests rest

/-- The loop `for (subtreeName in tree.trees) score += walkTree(...)`. -/
def walkTreeSubtrees : List (String × ResultTree) → ℚ
  | [] => 0
  | (_, t) :: rest => walkTree t + walkTreeSubtrees rest

end

/-- `scoreBrowserPassRates(runs, expectedBrowsers)`. -/
def scoreBrowserPassRates (runs : List Run) (expected : List String) :
    Except ValidationError (List (String × ℚ)) :=
  match validateRuns runs expected with
  | Except.error e => Except.error e
  | Except.ok () =>
    Except.ok (runs.map (fun run => (run.browser_name, walkTree run.tree)))

/-! ### Tree size: the fuel bound -/

mutual

/-- A fuel bound for one tree: enough iterations for its tests level, its
subtrees level and, recursively, every subtree. -/
def ResultTree.bigSize : ResultTree → Nat
  | .mk tests trees => 1 + tests.length + ResultTree.sizeList trees

def ResultTree.sizeList : List (String × ResultTree) → Nat
  | [] => 0
  | (_, t) :: rest => 1 + t.bigSize + ResultTree.sizeList rest

end

/-- A fuel bound for a whole walk over a list of browser trees. -/
def walkBound (trees : List ResultTree) : Nat :=
  1 + (trees.map ResultTree.bigSize).sum

/-- The indices of the browsers whose test-level status is not the literal
`PASS`, stated from the spec's wording (used to compare against the code's
`failedIndices` computation). -/
def nonPassIndices (browserTests : List TestResult) : List Nat :=
  (browserTests.enum.filter (fun p => decide (p.2.status ≠ "PASS"))).map Prod.fst

/-- The pass-rate contribution of one test, written from the spec's wording:
a test with no subtests (missing or empty sequence) contributes 1 exactly
when its status is `PASS`; a test with a nonempty subtest sequence
contributes passing subtests over total subtests. -/
def passRateTestSpec (t : TestResult) : ℚ :=
  if subtestsOf t = [] then (if t.status = "PASS" then 1 else 0)
  else (((subtestsOf t).filter (fun s => decide (s.status = "PASS"))).length : ℚ) /
    ((subtestsOf t).length : ℚ)

/-- The keys present in every cursor (in the first cursor's order). -/
def alignedKeys (key : α → List Char) (cursors : List (List α)) : List (List Char) :=
  match cursors with
  | [] => []
  | c :: cs => (c.map key).filter (fun k => decide (∀ c2 ∈ cs, k ∈ c2.map key))

/-- Each cursor's (first) entry with key `k`. -/
def groupAt (key : α → List Char) (cursors : List (List α)) (k : List Char) : List α :=
  cursors.filterMap (fun c => c.find? (fun x => decide (key x = k)))

/-- Whether all elements of a group share one value (the identity fast-path
test). -/
def isConstVal (val : α → β) [DecidableEq β] : List α → Bool
  | [] => true
  | h :: t => t.all (fun x => decide (val x = val h))

/-- Replay the aligned bodies over a list of keys. -/
def foldKeys (key : α → List Char) (val : α → β) [DecidableEq β] (fast : Bool)
    (act : List α → σ → Option σ) (cursors : List (List α)) :
    List (List Char) → σ → Option σ
  | [], st => some st
  | k :: ks, st =>
    if fast && isConstVal val (groupAt key cursors k) then
      foldKeys key val fast act cursors ks st
    else
      match act (groupAt key cursors k) st with
      | none => none
      | some st2 => foldKeys key val fast act cursors ks st2

/-- The subtest of `t` named (by key) `k`, if any: a browser's entry for an
aligned subtest name. -/
def subtestNamed (t : TestResult) (k : List Char) : Option SubtestResult :=
  (subtestsOf t).find? (fun s => decide (nameKey s.name = k))

/-- The subtest names aligned across all browsers, stated from the spec's
wording over the raw (unsorted) subtest sequences: the names of the first
browser's subtests that every other browser also reports. -/
def alignedNameKeys (browserTests : List TestResult) : List (List Char) :=
  match browserTests with
  | [] => []
  | t0 :: rest =>
    ((subtestsOf t0).map (fun s => nameKey s.name)).filter
      (fun k => decide (∀ t ∈ rest, k ∈ (subtestsOf t).map (fun s => nameKey s.name)))

/-- Whether browser `t` fails the subtest named `k`: its status for that
subtest is the literal `FAIL` (a missing subtest never counts as failing). -/
def failsAt (t : TestResult) (k : List Char) : Bool :=
  match subtestNamed t k with
  | some s => s.status == "FAIL"
  | none => false

/-- The number of aligned subtests failed by exactly browser `i` and no
other. -/
def bsfCount (browserTests : List TestResult) (i : Nat) : Nat :=
  ((alignedNameKeys browserTests).filter
    (fun k => decide (failedIndices (fun t => failsAt t k) browserTests = [i]))).length

/-! ### Basic accumulator lemmas -/

theorem addAt_length (scores : List ℚ) (i : Nat) (x : ℚ) :
    (addAt scores i x).length = scores.length := by
  induction scores generalizing i with
  | nil => rfl
  | cons v rest ih =>
    cases i with
    | zero => rfl
    | succ j => simpa [addAt] using ih j

theorem addAt_getD (scores : List ℚ) (i j : Nat) (x : ℚ) (hj : j < scores.length) :
    (addAt scores i x).getD j 0 = scores.getD j 0 + (if j = i then x else 0) := by
  induction scores generalizing i j with
  | nil => simp at hj
  | cons v rest ih =>
    cases i with
    | zero =>
      cases j with
      | zero => simp [addAt]
      | succ j' => simp [addAt]
    | succ i' =>
      cases j with
      | zero => simp [addAt]
      | succ j' =>
        have := ih i' j' (by simpa using hj)
        simpa [addAt, Nat.succ_eq_add_one] using this

theorem bumpAt_length (counts : List Nat) (i : Nat) :
    (bumpAt counts i).length = counts.length := by
  induction counts generalizing i with
  | nil => rfl
  | cons v rest ih =>
    cases i with
    | zero => rfl
    | succ j => simpa [bumpAt] using ih j

theorem bumpAt_getD (counts : List Nat) (i j : Nat) (hj : j < counts.length) :
    (bumpAt counts i).getD j 0 = counts.getD j 0 + (if j = i then 1 else 0) := by
  induction counts generalizing i j with
  | nil => simp at hj
  | cons v rest ih =>
    cases i with
    | zero =>
      cases j with
      | zero => simp [bumpAt]
      | succ j' => simp [bumpAt]
    | succ i' =>
      cases j with
      | zero => simp [bumpAt]
      | succ j' =>
        have := ih i' j' (by simpa using hj)
        simpa [bumpAt, Nat.succ_eq_add_one] using this

/-! ### Claims about the `IteratorHelper` class -/

/-- **C10.** For every `IteratorHelper` cursor whose `hasNext()` returns
false, calling `next()` throws an error and leaves the cursor's position
(indeed its whole observable state) unchanged; `next()` succeeds and
advances the position by one exactly when `hasNext()` is true. -/
theorem claim_C10 {α : Type} (it : IteratorHelper α) :
    (it.hasNext = false →
      it.next = (Except.error "Cannot move next; out of values", it)) ∧
    (it.hasNext = true →
      it.next = (Except.ok (), { it with currentIndex := it.currentIndex + 1 })) := by
  constructor
  · intro h
    simp [IteratorHelper.next, h]
  · intro h
    simp [IteratorHelper.next, h]

/-- Witness for C10 at a concrete exhausted cursor and a concrete live
cursor. -/
theorem claim_C10_witness :
    ((⟨2, 2, ([] : List Nat), [], none⟩ : IteratorHelper Nat).hasNext = false ∧
      (⟨2, 2, ([] : List Nat), [], none⟩ : IteratorHelper Nat).next =
        (Except.error "Cannot move next; out of values",
          ⟨2, 2, ([] : List Nat), [], none⟩)) ∧
    ((⟨0, 2, ([] : List Nat), [], none⟩ : IteratorHelper Nat).hasNext = true ∧
      (⟨0, 2, ([] : List Nat), [], none⟩ : IteratorHelper Nat).next =
        (Except.ok (), ⟨1, 2, ([] : List Nat), [], none⟩)) :=
  ⟨⟨by decide, (claim_C10 _).1 (by decide)⟩,
   ⟨by decide, (claim_C10 _).2 (by decide)⟩⟩

/-- **C7, counterexample.**  The claim says constructing a Sorted Merge
Iterator never mutates the caller's underlying collection, in particular an
array-backed subtest sequence keeps its contents and element order.  But the
constructor runs `this.values.sort(comparatorFunc)`, which sorts the
caller's array in place: for a two-element subtest array given in
descending name order, the array observed after construction differs from
the one passed in. -/
theorem claim_C7_counterexample :
    (IteratorHelper.ofArray
        [⟨"b", "PASS"⟩, ⟨"a", "PASS"⟩] subtestLe).2 ≠
      [(⟨"b", "PASS"⟩ : SubtestResult), ⟨"a", "PASS"⟩] := by
  decide

/-- **C7, amended.**  The array-backed constructor sorts the caller's array
in place: afterwards the array is a permutation of the original (no element
is added, removed or altered), sorted by the comparator; an object-backed
collection is not mutated at all (only a fresh copy of its key array is
sorted). -/
theorem claim_C7 {α β : Type} (arr : List α) (r : α → α → Prop) [DecidableRel r]
    [IsTotal α r] [IsTrans α r] (obj : List (String × β))
    (r2 : String → String → Prop) [DecidableRel r2] :
    ((IteratorHelper.ofArray arr r).2.Perm arr ∧
      List.Sorted r (IteratorHelper.ofArray arr r).2) ∧
    (IteratorHelper.ofObject obj r2).2 = obj := by
  refine ⟨⟨?_, ?_⟩, rfl⟩
  · exact List.perm_insertionSort r arr
  · exact List.sorted_insertionSort r arr

/-- Witness for C7 at the counterexample's concrete array and a concrete
object. -/
theorem claim_C7_witness :
    ((IteratorHelper.ofArray [⟨"b", "PASS"⟩, ⟨"a", "PASS"⟩] subtestLe).2.Perm
        [⟨"b", "PASS"⟩, ⟨"a", "PASS"⟩] ∧
      List.Sorted subtestLe
        (IteratorHelper.ofArray [⟨"b", "PASS"⟩, ⟨"a", "PASS"⟩] subtestLe).2) ∧
    (IteratorHelper.ofObject [("x", (0 : Nat))] (fun a b => nameKey a ≤ nameKey b)).2 =
      [("x", 0)] :=
  claim_C7 [⟨"b", "PASS"⟩, ⟨"a", "PASS"⟩] subtestLe [("x", 0)] _

/-! ### Claims about `scoreTest` -/

theorem failedIndices_eq_nonPassIndices (browserTests : List TestResult) :
    failedIndices (fun t => !(t.status == "PASS")) browserTests =
      nonPassIndices browserTests := by
  unfold failedIndices nonPassIndices
  congr 1
  apply List.filter_congr
  intro p _
  by_cases h : p.2.status = "PASS" <;> simp [h]

/-- **C3.** For an aligned test with mixed subtest presence (at least one
browser reports a nonempty subtest sequence and at least one reports none),
`scoreTest` leaves every entry of the scores accumulator unchanged. -/
theorem claim_C3 (browserTests : List TestResult) (scores : List ℚ)
    (h1 : ∃ t ∈ browserTests, subtestsOf t = [])
    (h2 : ∃ t ∈ browserTests, subtestsOf t ≠ []) :
    scoreTest browserTests scores = scores := by
  obtain ⟨t1, ht1, he1⟩ := h1
  obtain ⟨t2, ht2, he2⟩ := h2
  unfold scoreTest
  rw [if_neg, if_neg]
  · intro hall
    rw [List.all_eq_true] at hall
    have := hall t1 ht1
    simp [he1] at this
  · intro hall
    rw [List.all_eq_true] at hall
    have := hall t2 ht2
    simp [List.isEmpty_iff] at this
    exact he2 this

/-- Witness for C3: the spec's scenario 5 (chrome `ERROR` with no subtests,
firefox `OK` with three subtests). -/
theorem claim_C3_witness :
    (∃ t ∈ [(⟨"ERROR", none⟩ : TestResult),
        ⟨"OK", some [⟨"t1", "PASS"⟩, ⟨"t2", "FAIL"⟩, ⟨"t3", "PASS"⟩]⟩], subtestsOf t = []) ∧
    (∃ t ∈ [(⟨"ERROR", none⟩ : TestResult),
        ⟨"OK", some [⟨"t1", "PASS"⟩, ⟨"t2", "FAIL"⟩, ⟨"t3", "PASS"⟩]⟩], subtestsOf t ≠ []) ∧
    scoreTest [⟨"ERROR", none⟩,
        ⟨"OK", some [⟨"t1", "PASS"⟩, ⟨"t2", "FAIL"⟩, ⟨"t3", "PASS"⟩]⟩] [0, 0] = [0, 0] :=
  ⟨by decide, by decide, claim_C3 _ _ (by decide) (by decide)⟩

/-- **C1.** For an aligned test where no browser reports subtests, the entry
of the (unique) non-`PASS` browser increases by exactly 1 when exactly one
browser is non-`PASS`, and no entry changes otherwise; every status other
than the literal `PASS` (that is, each of CRASH, ERROR, FAIL, OK, SKIP,
TIMEOUT among the admitted statuses) counts as a failure in this branch. -/
theorem claim_C1 (browserTests : List TestResult) (scores : List ℚ)
    (hns : ∀ t ∈ browserTests, subtestsOf t = []) :
    (scoreTest browserTests scores).length = scores.length ∧
    (∀ j, j < scores.length →
      (scoreTest browserTests scores).getD j 0 =
        scores.getD j 0 + (if nonPassIndices browserTests = [j] then 1 else 0)) ∧
    (∀ t ∈ browserTests, t.status ∈ testStatuses →
      (t.status ≠ "PASS" ↔
        t.status ∈ ["CRASH", "ERROR", "FAIL", "OK", "SKIP", "TIMEOUT"])) := by
  have hcond : browserTests.all (fun t => (subtestsOf t).isEmpty) = true := by
    rw [List.all_eq_true]
    intro t ht
    simp [List.isEmpty_iff, hns t ht]
  have hst : scoreTest browserTests scores =
      match nonPassIndices browserTests with
      | [i] => addAt scores i 1
      | _ => scores := by
    unfold scoreTest
    rw [if_pos hcond, failedIndices_eq_nonPassIndices]
  refine ⟨?_, ?_, ?_⟩
  · rw [hst]
    match h : nonPassIndices browserTests with
    | [] => rfl
    | [i] => exact addAt_length scores i 1
    | a :: b :: rest => rfl
  · intro j hj
    rw [hst]
    match h : nonPassIndices browserTests with
    | [] => simp
    | [i] =>
      rw [addAt_getD scores i j 1 hj]
      by_cases hij : j = i
      · simp [hij]
      · have hij2 : ¬i = j := fun hh => hij hh.symm
        simp [hij, hij2]
    | a :: b :: rest => simp
  · intro t _ hmem
    simp only [testStatuses, List.mem_cons, List.not_mem_nil, or_false] at hmem
    rcases hmem with h|h|h|h|h|h|h <;> rw [h] <;> simp

/-! ### Claims about run validation -/

theorem validateLoop_ok_iff (expected : List String) :
    ∀ (runs : List Run) (seen : List String), seen.Nodup →
      (∀ b ∈ seen, b ∈ expected) →
      (validateLoop expected seen runs = Except.ok () ↔
        ((seen ++ runs.map Run.browser_name).Nodup ∧
          (seen ++ runs.map Run.browser_name).length = expected.length ∧
          ∀ b ∈ runs.map Run.browser_name, b ∈ expected)) := by
  intro runs
  induction runs with
  | nil =>
    intro seen hnd hsub
    simp only [validateLoop, List.map_nil, List.append_nil]
    constructor
    · intro h
      by_cases hlen : seen.length ≠ expected.length
      · rw [if_pos hlen] at h
        exact absurd h (by simp)
      · exact ⟨hnd, by omega, by simp⟩
    · rintro ⟨-, hlen, -⟩
      rw [if_neg (by omega)]
  | cons run rest ih =>
    intro seen hnd hsub
    simp only [validateLoop, List.map_cons]
    by_cases h1 : run.browser_name ∈ expected
    · rw [if_neg (by simpa using h1)]
      by_cases h2 : run.browser_name ∈ seen
      · rw [if_pos h2]
        constructor
        · intro h
          exact absurd h (by simp)
        · rintro ⟨hdup, -, -⟩
          exfalso
          rcases List.nodup_append.mp hdup with ⟨-, -, hdisj⟩
          exact hdisj h2 (by simp)
      · rw [if_neg h2]
        have hnd2 : (seen ++ [run.browser_name]).Nodup :=
          List.Nodup.append hnd (List.nodup_singleton _)
            (List.disjoint_singleton.mpr h2)
        have hsub2 : ∀ b ∈ seen ++ [run.browser_name], b ∈ expected := by
          intro b hb
          rcases List.mem_append.mp hb with hb | hb
          · exact hsub b hb
          · simpa using (List.mem_singleton.mp hb) ▸ h1
        rw [ih (seen ++ [run.browser_name]) hnd2 hsub2]
        constructor
        · rintro ⟨ha, hb, hc⟩
          refine ⟨by simpa using ha, by simpa using hb, ?_⟩
          intro b hb2
          rcases List.mem_cons.mp hb2 with hb2 | hb2
          · exact hb2 ▸ h1
          · exact hc b hb2
        · rintro ⟨ha, hb, hc⟩
          refine ⟨by simpa using ha, by simpa using hb, ?_⟩
          intro b hb2
          exact hc b (List.mem_cons_of_mem _ hb2)
    · rw [if_pos (by simpa using h1)]
      constructor
      · intro h
        exact absurd h (by simp)
      · rintro ⟨-, -, hc⟩
        exact absurd (hc run.browser_name (by simp)) h1

theorem validateLoop_unexpected (expected : List String) :
    ∀ (runs : List Run) (seen : List String) (b : String),
      validateLoop expected seen runs = Except.error (.unexpectedBrowser b) →
      b ∈ runs.map Run.browser_name ∧ b ∉ expected := by
  intro runs
  induction runs with
  | nil =>
    intro seen b h
    simp only [validateLoop] at h
    split at h
    · exact absurd (Except.error.inj h) (by simp)
    · exact absurd h (by simp)
  | cons run rest ih =>
    intro seen b h
    simp only [validateLoop] at h
    split at h
    · rename_i hmem
      have hb := Except.error.inj h
      have : b = run.browser_name := by
        cases hb
        rfl
      subst this
      exact ⟨by simp, by simpa using hmem⟩
    · split at h
      · exact absurd (Except.error.inj h) (by simp)
      · have := ih _ b h
        exact ⟨List.mem_cons_of_mem _ this.1, this.2⟩

theorem validateLoop_duplicate (expected : List String) :
    ∀ (runs : List Run) (seen : List String) (b : String), seen ⊆ expected →
      validateLoop expected seen runs = Except.error (.duplicateBrowser b) →
      b ∈ expected ∧ 2 ≤ (seen ++ runs.map Run.browser_name).count b := by
  intro runs
  induction runs with
  | nil =>
    intro seen b _ h
    simp only [validateLoop] at h
    split at h
    · exact absurd (Except.error.inj h) (by simp)
    · exact absurd h (by simp)
  | cons run rest ih =>
    intro seen b hsub h
    simp only [validateLoop] at h
    split at h
    · exact absurd (Except.error.inj h) (by simp)
    · split at h
      · rename_i hnotin hin
        have hb := Except.error.inj h
        have hbe : run.browser_name = b := by
          injection hb
        subst hbe
        refine ⟨by simpa using hnotin, ?_⟩
        have h1 : 0 < seen.count run.browser_name := List.count_pos_iff.mpr hin
        rw [List.map_cons, List.count_append, List.count_cons_self]
        omega
      · rename_i hnotin hnotseen
        have := ih (seen ++ [run.browser_name]) b
          (by
            intro c hc
            rcases List.mem_append.mp hc with hc | hc
            · exact hsub hc
            · rw [List.mem_singleton.mp hc]
              simpa using hnotin) h
        refine ⟨this.1, ?_⟩
        have h2 := this.2
        rw [List.append_assoc] at h2
        simpa using h2

theorem validateLoop_missing (expected : List String) :
    ∀ (runs : List Run) (seen : List String) (names : List String),
      validateLoop expected seen runs = Except.error (.missingBrowser names) →
      names = expected.filter (fun x => x ∉ seen ++ runs.map Run.browser_name) := by
  intro runs
  induction runs with
  | nil =>
    intro seen names h
    simp only [validateLoop] at h
    split at h
    · have := Except.error.inj h
      have hn : names = expected.filter (fun x => x ∉ seen) := by
        cases this
        rfl
      rw [hn]
      apply List.filter_congr
      intro x _
      simp
    · exact absurd h (by simp)
  | cons run rest ih =>
    intro seen names h
    simp only [validateLoop] at h
    split at h
    · exact absurd (Except.error.inj h) (by simp)
    · split at h
      · exact absurd (Except.error.inj h) (by simp)
      · have := ih (seen ++ [run.browser_name]) names h
        rw [this]
        apply List.filter_congr
        intro x _
        have : (x ∈ seen ++ [run.browser_name] ++ rest.map Run.browser_name) ↔
            (x ∈ seen ++ (run :: rest).map Run.browser_name) := by
          simp only [List.mem_append, List.mem_singleton, List.map_cons, List.mem_cons]
          tauto
        by_cases hx : x ∈ seen ++ [run.browser_name] ++ rest.map Run.browser_name
        · simp [hx, this.mp hx]
        · simp [hx, fun hc => hx (this.mpr hc)]

theorem validateLoop_missing_extras (expected : List String) :
    ∀ (runs : List Run) (seen : List String) (names : List String), seen.Nodup →
      (∀ b ∈ seen, b ∈ expected) →
      validateLoop expected seen runs = Except.error (.missingBrowser names) →
      (seen ++ runs.map Run.browser_name).Nodup ∧
        (∀ b ∈ runs.map Run.browser_name, b ∈ expected) ∧
        (seen ++ runs.map Run.browser_name).length ≠ expected.length := by
  intro runs
  induction runs with
  | nil =>
    intro seen names hnd hsub h
    simp only [validateLoop] at h
    split at h
    · rename_i hlen
      exact ⟨by simpa using hnd, by simp, by simpa using hlen⟩
    · exact absurd h (by simp)
  | cons run rest ih =>
    intro seen names hnd hsub h
    simp only [validateLoop] at h
    split at h
    · exact absurd (Except.error.inj h) (by simp)
    · split at h
      · exact absurd (Except.error.inj h) (by simp)
      · rename_i hnotin hnotseen
        have h1 : run.browser_name ∈ expected := by simpa using hnotin
        have hnd2 : (seen ++ [run.browser_name]).Nodup :=
          List.Nodup.append hnd (List.nodup_singleton _)
            (List.disjoint_singleton.mpr hnotseen)
        have hsub2 : ∀ b ∈ seen ++ [run.browser_name], b ∈ expected := by
          intro b hb
          rcases List.mem_append.mp hb with hb | hb
          · exact hsub b hb
          · rw [List.mem_singleton.mp hb]
            exact h1
        obtain ⟨ha, hb, hc⟩ := ih (seen ++ [run.browser_name]) names hnd2 hsub2 h
        rw [List.append_assoc] at ha hc
        refine ⟨by simpa using ha, ?_, by simpa using hc⟩
        intro b hb2
        simp only [List.map_cons, List.mem_cons] at hb2
        rcases hb2 with hb2 | hb2
        · exact hb2 ▸ h1
        · exact hb b hb2

/-- **C6.** Validation succeeds (and scoring proceeds with the given runs)
exactly when `runs` has one run per browser of `expectedBrowsers`; otherwise
the call fails before any scoring with `UnexpectedBrowser` (a run's browser
not in the expected set), `DuplicateBrowser` (a browser occurring in two
runs), or `MissingBrowser` listing the missing names once the other checks
pass; the same validation guards both scorers, which produce no score map on
failure. -/
theorem claim_C6 (runs : List Run) (expected : List String) (fuel : Nat)
    (hE : expected.Nodup) :
    (validateRuns runs expected = Except.ok () ↔
      ((runs.map Run.browser_name).Nodup ∧
        ∀ b, b ∈ runs.map Run.browser_name ↔ b ∈ expected)) ∧
    (∀ b, validateRuns runs expected = Except.error (.unexpectedBrowser b) →
      b ∈ runs.map Run.browser_name ∧ b ∉ expected) ∧
    (∀ b, validateRuns runs expected = Except.error (.duplicateBrowser b) →
      b ∈ expected ∧ 2 ≤ (runs.map Run.browser_name).count b) ∧
    (∀ names, validateRuns runs expected = Except.error (.missingBrowser names) →
      names = expected.filter (fun x => x ∉ runs.map Run.browser_name) ∧
      names ≠ [] ∧ (runs.map Run.browser_name).Nodup ∧
      ∀ b ∈ runs.map Run.browser_name, b ∈ expected) ∧
    (∀ e, validateRuns runs expected = Except.error e →
      scoreBrowserSpecificFailures fuel runs expected = Except.error e ∧
      scoreBrowserPassRates runs expected = Except.error e) ∧
    (validateRuns runs expected = Except.ok () →
      scoreBrowserPassRates runs expected =
        Except.ok (runs.map (fun run => (run.browser_name, walkTree run.tree)))) := by
  refine ⟨?_, ?_, ?_, ?_, ?_, ?_⟩
  · rw [validateRuns,
      validateLoop_ok_iff expected runs [] List.nodup_nil (by simp)]
    simp only [List.nil_append]
    constructor
    · rintro ⟨hnd, hlen, hsub⟩
      refine ⟨hnd, ?_⟩
      have hsp : List.Subperm (runs.map Run.browser_name) expected :=
        List.Nodup.subperm hnd hsub
      have hperm := hsp.perm_of_length_le (by omega)
      exact fun b => hperm.mem_iff
    · rintro ⟨hnd, hmem⟩
      have hperm : List.Perm (runs.map Run.browser_name) expected :=
        (List.perm_ext_iff_of_nodup hnd hE).mpr hmem
      exact ⟨hnd, hperm.length_eq, fun b hb => (hmem b).mp hb⟩
  · exact fun b => validateLoop_unexpected expected runs [] b
  · intro b h
    have := validateLoop_duplicate expected runs [] b (by simp) h
    simpa using this
  · intro names h
    have h1 := validateLoop_missing expected runs [] names h
    obtain ⟨ha, hb, hc⟩ :=
      validateLoop_missing_extras expected runs [] names List.nodup_nil (by simp) h
    simp only [List.nil_append] at ha hc
    have h1' : names = expected.filter (fun x => x ∉ runs.map Run.browser_name) := by
      rw [h1]
      apply List.filter_congr
      intro x _
      simp
    refine ⟨h1', ?_, ha, hb⟩
    intro hne
    rw [hne] at h1'
    have hall : ∀ x ∈ expected, x ∈ runs.map Run.browser_name := by
      intro x hx
      have := List.filter_eq_nil_iff.mp h1'.symm x hx
      simpa using this
    have hperm : List.Perm (runs.map Run.browser_name) expected :=
      (List.perm_ext_iff_of_nodup ha hE).mpr
        (fun b => ⟨fun hb2 => hb b hb2, fun hb2 => hall b hb2⟩)
    exact hc hperm.length_eq
  · intro e h
    constructor
    · simp only [scoreBrowserSpecificFailures, h]
    · simp only [scoreBrowserPassRates, h]
  · intro h
    simp only [scoreBrowserPassRates, h]

/-- Witness for C6 at a concrete valid run set (and concrete fuel). -/
theorem claim_C6_witness :
    (["chrome", "firefox"] : List String).Nodup ∧
    (validateRuns [⟨"chrome", .mk [] []⟩, ⟨"firefox", .mk [] []⟩] ["chrome", "firefox"]
        = Except.ok () ↔
      (([⟨"chrome", .mk [] []⟩, ⟨"firefox", .mk [] []⟩] : List Run).map
          Run.browser_name).Nodup ∧
        ∀ b, b ∈ ([⟨"chrome", .mk [] []⟩, ⟨"firefox", .mk [] []⟩] : List Run).map
            Run.browser_name ↔ b ∈ ["chrome", "firefox"]) :=
  ⟨by decide,
    (claim_C6 [⟨"chrome", .mk [] []⟩, ⟨"firefox", .mk [] []⟩] ["chrome", "firefox"] 1
      (by decide)).1⟩

/-- Witness for C1: the spec's scenario 2 (chrome `TIMEOUT`, firefox
`PASS`; the timeout counts as the single test-level failure). -/
theorem claim_C1_witness :
    (∀ t ∈ [(⟨"TIMEOUT", none⟩ : TestResult), ⟨"PASS", none⟩], subtestsOf t = []) ∧
    ((scoreTest [⟨"TIMEOUT", none⟩, ⟨"PASS", none⟩] ([0, 0] : List ℚ)).length =
        ([0, 0] : List ℚ).length ∧
      (∀ j, j < ([0, 0] : List ℚ).length →
        (scoreTest [⟨"TIMEOUT", none⟩, ⟨"PASS", none⟩] ([0, 0] : List ℚ)).getD j 0 =
          ([0, 0] : List ℚ).getD j 0 +
            (if nonPassIndices [⟨"TIMEOUT", none⟩, ⟨"PASS", none⟩] = [j] then 1 else 0)) ∧
      (∀ t ∈ [(⟨"TIMEOUT", none⟩ : TestResult), ⟨"PASS", none⟩],
        t.status ∈ testStatuses →
        (t.status ≠ "PASS" ↔
          t.status ∈ ["CRASH", "ERROR", "FAIL", "OK", "SKIP", "TIMEOUT"]))) :=
  ⟨by decide, claim_C1 _ _ (by decide)⟩

/-! ### Claims about the pass-rate scorer -/

theorem scorePassRateTest_eq_spec (t : TestResult) :
    scorePassRateTest t = passRateTestSpec t := by
  by_cases h : subtestsOf t = []
  · by_cases hp : t.status = "PASS" <;>
      simp [scorePassRateTest, passRateTestSpec, h, hp]
  · have hne : (subtestsOf t).isEmpty = false := by
      simpa [List.isEmpty_iff] using h
    simp only [scorePassRateTest, passRateTestSpec, scoreSubtests, hne,
      Bool.not_false, if_true, if_neg h]
    rw [if_neg (by simpa [List.length_eq_zero] using h)]
    have hfilter : List.filter (fun s => s.status == "PASS") (subtestsOf t) =
        List.filter (fun s => decide (s.status = "PASS")) (subtestsOf t) := by
      apply List.filter_congr
      intro s _
      by_cases hs : s.status = "PASS" <;> simp [hs]
    rw [hfilter]

theorem walkTreeTests_eq (l : List (String × TestResult)) :
    walkTreeTests l = (l.map (fun p => scorePassRateTest p.2)).sum := by
  induction l with
  | nil => simp [walkTreeTests]
  | cons p rest ih =>
    obtain ⟨n, t⟩ := p
    simp [walkTreeTests, ih]

theorem walkTreeSubtrees_eq (l : List (String × ResultTree)) :
    walkTreeSubtrees l = (l.map (fun p => walkTree p.2)).sum := by
  induction l with
  | nil => simp [walkTreeSubtrees]
  | cons p rest ih =>
    obtain ⟨n, t⟩ := p
    simp [walkTreeSubtrees, ih]

/-- **C8.** After validation succeeds the pass-rate scorer scores each run's
tree independently; a test with no subtests (missing or empty sequence)
contributes 1 exactly when its status is `PASS` and 0 otherwise; a test with
a nonempty subtest sequence contributes passing subtests divided by total
subtests; and a tree's score is the sum of its tests' contributions plus the
recursive sum of its subtrees' scores (an un-normalized total). -/
theorem claim_C8 (runs : List Run) (expected : List String)
    (h : validateRuns runs expected = Except.ok ()) :
    scoreBrowserPassRates runs expected =
      Except.ok (runs.map (fun run => (run.browser_name, walkTree run.tree))) ∧
    (∀ t, scorePassRateTest t = passRateTestSpec t) ∧
    (∀ tests trees, walkTree (ResultTree.mk tests trees) =
      (tests.map (fun p => passRateTestSpec p.2)).sum +
        (trees.map (fun p => walkTree p.2)).sum) := by
  refine ⟨?_, scorePassRateTest_eq_spec, ?_⟩
  · simp only [scoreBrowserPassRates, h]
  · intro tests trees
    rw [show walkTree (ResultTree.mk tests trees) =
        walkTreeTests tests + walkTreeSubtrees trees from by rw [walkTree]]
    rw [walkTreeTests_eq, walkTreeSubtrees_eq]
    have hmap : tests.map (fun p => scorePassRateTest p.2) =
        tests.map (fun p => passRateTestSpec p.2) :=
      List.map_congr_left (fun p _ => scorePassRateTest_eq_spec p.2)
    rw [hmap]

/-- Witness for C8 at a concrete valid run set. -/
theorem claim_C8_witness :
    validateRuns ([⟨"chrome", .mk [("TestA", ⟨"PASS", none⟩)] []⟩] : List Run) ["chrome"]
        = Except.ok () ∧
    (scoreBrowserPassRates
        ([⟨"chrome", .mk [("TestA", ⟨"PASS", none⟩)] []⟩] : List Run) ["chrome"] =
      Except.ok (([⟨"chrome", .mk [("TestA", ⟨"PASS", none⟩)] []⟩] : List Run).map
        (fun run => (run.browser_name, walkTree run.tree))) ∧
    (∀ t, scorePassRateTest t = passRateTestSpec t) ∧
    (∀ tests trees, walkTree (ResultTree.mk tests trees) =
      (tests.map (fun p => passRateTestSpec p.2)).sum +
        (trees.map (fun p => walkTree p.2)).sum)) :=
  ⟨by rfl, claim_C8 _ _ (by rfl)⟩

/-! ### Characterizing the merge loops

The loops are characterized against an intersection-style description: the
aligned keys of a cursor family are the keys of the first cursor that occur
in every other cursor, and the group at such a key collects each cursor's
entry for it.  `foldKeys` then replays the aligned bodies in key order,
skipping (when the fast path is on) the groups whose values all coincide. -/

theorem mapM_head?_some_iff (cursors : List (List α)) (heads : List α) :
    cursors.mapM List.head? = some heads ↔
      List.Forall₂ (fun c h => List.head? c = some h) cursors heads := by
  induction cursors generalizing heads with
  | nil =>
    simp only [List.mapM_nil, pure, Option.some.injEq]
    constructor
    · rintro rfl
      exact List.Forall₂.nil
    · intro h
      cases h
      rfl
  | cons c cs ih =>
    rw [List.mapM_cons]
    constructor
    · intro h
      match hc : List.head? c with
      | none => rw [hc] at h; simp at h
      | some a =>
        rw [hc] at h
        simp only [Option.bind_eq_bind, Option.some_bind] at h
        match hcs : cs.mapM List.head? with
        | none => rw [hcs] at h; simp at h
        | some rest =>
          rw [hcs] at h
          simp only [Option.bind_eq_bind, Option.some_bind, pure, Option.some.injEq] at h
          subst h
          exact List.Forall₂.cons hc ((ih rest).mp hcs)
    · intro h
      cases h with
      | cons hh ht =>
        rename_i a rest
        rw [hh]
        simp only [Option.bind_eq_bind, Option.some_bind]
        rw [(ih rest).mpr ht]
        rfl

theorem findMinIdx_spec (key : α → List Char) (d : α) (heads : List α) :
    ∀ (n : Nat) (i : Nat) (best : List Char) (bestIdx : Nat),
      heads.length - i ≤ n →
      bestIdx < heads.length →
      key (heads.getD bestIdx d) = best →
      (∀ x ∈ heads.take i, best ≤ key x) →
      findMinIdx key (heads.drop i) best bestIdx i < heads.length ∧
        ∀ x ∈ heads, key (heads.getD (findMinIdx key (heads.drop i) best bestIdx i) d) ≤ key x := by
  intro n
  induction n with
  | zero =>
    intro i best bestIdx hn hb hkey hpre
    have hknull : heads.length ≤ i := by omega
    rw [List.drop_eq_nil_of_le hknull]
    refine ⟨by simpa [findMinIdx] using hb, ?_⟩
    intro x hx
    simp only [findMinIdx, hkey]
    exact hpre x (by rwa [List.take_of_length_le hknull])
  | succ n ih =>
    intro i best bestIdx hn hb hkey hpre
    by_cases hi : i < heads.length
    · have hdrop : heads.drop i = heads.getD i d :: heads.drop (i + 1) := by
        rw [List.getD_eq_getElem _ _ hi]
        exact List.drop_eq_getElem_cons hi
      rw [hdrop]
      simp only [findMinIdx]
      have htake : heads.take (i + 1) = heads.take i ++ [heads.getD i d] := by
        rw [List.getD_eq_getElem _ _ hi]
        exact (List.take_concat_get' heads i hi).symm
      by_cases hlt : key (heads.getD i d) < best
      · rw [if_pos hlt]
        apply ih (i + 1) (key (heads.getD i d)) i (by omega) hi rfl
        intro x hx
        rw [htake] at hx
        rcases List.mem_append.mp hx with hx | hx
        · exact le_of_lt (lt_of_lt_of_le hlt (hpre x hx))
        · rw [List.mem_singleton.mp hx]
      · rw [if_neg hlt]
        apply ih (i + 1) best bestIdx (by omega) hb hkey
        intro x hx
        rw [htake] at hx
        rcases List.mem_append.mp hx with hx | hx
        · exact hpre x hx
        · rw [List.mem_singleton.mp hx]
          exact le_of_not_lt hlt
    · have hknull : heads.length ≤ i := by omega
      rw [List.drop_eq_nil_of_le hknull]
      refine ⟨by simpa [findMinIdx] using hb, ?_⟩
      intro x hx
      simp only [findMinIdx, hkey]
      exact hpre x (by rwa [List.take_of_length_le hknull])

theorem mapIdx_id_fun (l : List α) : List.mapIdx (fun _ c => c) l = l := by
  induction l with
  | nil => rfl
  | cons a rest ih =>
    rw [List.mapIdx_cons]
    simpa using ih

theorem dropHeadAt_cons_zero (c : List α) (cs : List (List α)) :
    dropHeadAt (c :: cs) 0 = c.tail :: cs := by
  unfold dropHeadAt
  rw [List.mapIdx_cons]
  simpa using mapIdx_id_fun cs

theorem dropHeadAt_cons_succ (c : List α) (cs : List (List α)) (j : Nat) :
    dropHeadAt (c :: cs) (j + 1) = c :: dropHeadAt cs j := by
  unfold dropHeadAt
  rw [List.mapIdx_cons]
  simp

theorem head_le_of_sorted (key : α → List Char) (c : List α)
    (hs : List.Pairwise (fun a b => key a < key b) c) (x : α)
    (hx : List.head? c = some x) : ∀ y ∈ c, key x ≤ key y := by
  cases c with
  | nil => simp at hx
  | cons a t =>
    have hax : a = x := by simpa using hx
    subst hax
    intro y hy
    rcases List.mem_cons.mp hy with hy | hy
    · rw [hy]
    · exact le_of_lt ((List.pairwise_cons.mp hs).1 y hy)

theorem notMem_keys_of_head_gt (key : α → List Char) (c : List α)
    (hs : List.Pairwise (fun a b => key a < key b) c) (x : α)
    (hx : List.head? c = some x) (m : List Char) (hm : m < key x) :
    m ∉ c.map key := by
  intro hmem
  rcases List.mem_map.mp hmem with ⟨y, hy, hky⟩
  have := head_le_of_sorted key c hs x hx y hy
  rw [hky] at this
  exact absurd (lt_of_lt_of_le hm this) (lt_irrefl m)

theorem forall₂_head_key (key : α → List Char) (k0 : List Char) :
    ∀ (cs : List (List α)) (hs : List α),
      List.Forall₂ (fun c h => List.head? c = some h) cs hs →
      (∀ h ∈ hs, key h = k0) →
      ∀ c ∈ cs, ∃ h t, c = h :: t ∧ key h = k0 := by
  intro cs hs hf
  induction hf with
  | nil =>
    intro _ c hc
    simp at hc
  | cons hpair hrest ih =>
    rename_i c1 h1 cs1 hs1
    intro hk c hc
    rcases List.mem_cons.mp hc with hc | hc
    · subst hc
      cases c with
      | nil => simp at hpair
      | cons a t =>
        exact ⟨a, t, rfl, by
          have : a = h1 := by simpa using hpair
          rw [this]
          exact hk h1 (by simp)⟩
    · exact ih (fun h hh => hk h (List.mem_cons_of_mem _ hh)) c hc

theorem groupAt_aligned (key : α → List Char) (k0 : List Char) :
    ∀ (cursors : List (List α)) (heads : List α),
      List.Forall₂ (fun c h => List.head? c = some h) cursors heads →
      (∀ h ∈ heads, key h = k0) →
      groupAt key cursors k0 = heads ∧
        (∀ k, k ≠ k0 → groupAt key cursors k = groupAt key (cursors.map List.tail) k) := by
  intro cursors heads hf
  induction hf with
  | nil =>
    intro _
    exact ⟨rfl, fun k _ => rfl⟩
  | cons hpair hrest ih =>
    rename_i c1 h1 cs1 hs1
    intro hk
    have hk1 : key h1 = k0 := hk h1 (by simp)
    have ihk := ih (fun h hh => hk h (List.mem_cons_of_mem _ hh))
    cases c1 with
    | nil => simp at hpair
    | cons a t =>
      have hah : a = h1 := by simpa using hpair
      subst hah
      constructor
      · unfold groupAt
        rw [List.filterMap_cons]
        rw [List.find?_cons_of_pos _ (by simp [hk1])]
        simp only
        congr 1
        exact ihk.1
      · intro k hkne
        unfold groupAt
        rw [List.map_cons, List.filterMap_cons, List.filterMap_cons]
        rw [List.find?_cons_of_neg _ (by simp [hk1, hkne.symm])]
        simp only [List.tail_cons]
        have h2 := ihk.2 k hkne
        unfold groupAt at h2
        rw [h2]

theorem mem_all_tails_iff (key : α → List Char) (k0 k : List Char) (hkne : k ≠ k0) :
    ∀ (cs : List (List α)) (hs : List α),
      List.Forall₂ (fun c h => List.head? c = some h) cs hs →
      (∀ h ∈ hs, key h = k0) →
      ((∀ c2 ∈ cs, k ∈ c2.map key) ↔ (∀ c2 ∈ cs.map List.tail, k ∈ c2.map key)) := by
  intro cs hs hf
  induction hf with
  | nil =>
    intro _
    simp
  | cons hpair hrest ih =>
    rename_i c1 h1 cs1 hs1
    intro hk
    have hk1 : key h1 = k0 := hk h1 (by simp)
    have ihk := ih (fun h hh => hk h (List.mem_cons_of_mem _ hh))
    cases c1 with
    | nil => simp at hpair
    | cons a t =>
      have hah : a = h1 := by simpa using hpair
      subst hah
      rw [List.map_cons, List.tail_cons]
      rw [List.forall_mem_cons, List.forall_mem_cons]
      constructor
      · rintro ⟨hmem, hrest2⟩
        refine ⟨?_, ihk.mp hrest2⟩
        rw [List.map_cons, List.mem_cons] at hmem
        rcases hmem with hc | hc
        · exact absurd (hc.trans hk1) hkne
        · exact hc
      · rintro ⟨hmem, hrest2⟩
        refine ⟨?_, ihk.mpr hrest2⟩
        rw [List.map_cons, List.mem_cons]
        exact Or.inr hmem

theorem alignedKeys_aligned (key : α → List Char) (k0 : List Char)
    (c0 : List α) (cs : List (List α)) (h0 : α) (hs : List α)
    (hp0 : List.head? c0 = some h0)
    (hf : List.Forall₂ (fun c h => List.head? c = some h) cs hs)
    (hsorted : ∀ c ∈ c0 :: cs, List.Pairwise (fun a b => key a < key b) c)
    (hk : ∀ h ∈ h0 :: hs, key h = k0) :
    alignedKeys key (c0 :: cs) = k0 :: alignedKeys key ((c0 :: cs).map List.tail) := by
  cases c0 with
  | nil => simp at hp0
  | cons a t0 =>
    have hah : a = h0 := by simpa using hp0
    subst hah
    have hk0 : key a = k0 := hk a (by simp)
    have hkcs : ∀ h ∈ hs, key h = k0 := fun h hh => hk h (List.mem_cons_of_mem _ hh)
    have hmap : ((a :: t0) :: cs).map List.tail = t0 :: cs.map List.tail := by
      rw [List.map_cons, List.tail_cons]
    rw [hmap]
    simp only [alignedKeys]
    rw [List.map_cons, List.filter_cons]
    have hF : (decide (∀ c2 ∈ cs, key a ∈ c2.map key)) = true := by
      rw [decide_eq_true_eq]
      intro c2 hc2
      obtain ⟨h2, t2, hc2eq, hkh2⟩ := forall₂_head_key key k0 cs hs hf hkcs c2 hc2
      rw [hc2eq]
      exact List.mem_map.mpr ⟨h2, by simp, by rw [hkh2, hk0]⟩
    rw [hF]
    simp only [if_true]
    rw [hk0]
    congr 1
    apply List.filter_congr
    intro k hkmem
    have hklt : k0 < k := by
      rcases List.mem_map.mp hkmem with ⟨y, hy, hky⟩
      have := (List.pairwise_cons.mp (hsorted (a :: t0) (by simp))).1 y hy
      rw [hk0] at this
      rw [← hky]
      exact this
    have hkne : k ≠ k0 := fun hh => absurd (hh ▸ hklt) (lt_irrefl k0)
    exact decide_eq_decide.mpr (mem_all_tails_iff key k0 k hkne cs hs hf hkcs)

theorem dropHeadAt_append (pre : List (List α)) (c : List α) (post : List (List α)) :
    dropHeadAt (pre ++ c :: post) pre.length = pre ++ c.tail :: post := by
  induction pre with
  | nil => exact dropHeadAt_cons_zero c post
  | cons p pre2 ih =>
    rw [List.cons_append, List.length_cons, dropHeadAt_cons_succ, ih, List.cons_append]

theorem skip_witness (key : α → List Char) (pre post : List (List α))
    (x : α) (t : List α)
    (hsorted : ∀ c ∈ pre ++ (x :: t) :: post,
      List.Pairwise (fun a b => key a < key b) c)
    (hex : ∃ c ∈ pre ++ (x :: t) :: post, ∃ h,
      List.head? c = some h ∧ key x < key h) :
    ∃ cw, (cw ∈ pre ∨ cw ∈ post) ∧ key x ∉ cw.map key := by
  obtain ⟨cw, hcw, hw, hhw, hlt⟩ := hex
  have hne : cw ≠ x :: t := by
    intro hh
    subst hh
    have hxw : x = hw := by simpa using hhw
    subst hxw
    exact absurd hlt (lt_irrefl _)
  have hmem : cw ∈ pre ∨ cw ∈ post := by
    rcases List.mem_append.mp hcw with hc | hc
    · exact Or.inl hc
    · rcases List.mem_cons.mp hc with hc | hc
      · exact absurd hc hne
      · exact Or.inr hc
  exact ⟨cw, hmem,
    notMem_keys_of_head_gt key cw (hsorted cw hcw) hw hhw (key x) hlt⟩

theorem groupAt_skip (key : α → List Char) (pre post : List (List α))
    (x : α) (t : List α) :
    ∀ k, k ≠ key x →
      groupAt key (pre ++ t :: post) k = groupAt key (pre ++ (x :: t) :: post) k := by
  intro k hk
  unfold groupAt
  rw [List.filterMap_append, List.filterMap_append]
  congr 1
  rw [List.filterMap_cons, List.filterMap_cons]
  rw [List.find?_cons_of_neg _ (by
    simp only [decide_eq_true_eq]
    exact fun hh => hk hh.symm)]

theorem alignedKeys_skip (key : α → List Char) (pre post : List (List α))
    (x : α) (t : List α)
    (hsorted : ∀ c ∈ pre ++ (x :: t) :: post,
      List.Pairwise (fun a b => key a < key b) c)
    (hex : ∃ c ∈ pre ++ (x :: t) :: post, ∃ h,
      List.head? c = some h ∧ key x < key h) :
    alignedKeys key (pre ++ t :: post) = alignedKeys key (pre ++ (x :: t) :: post) := by
  obtain ⟨cw, hcwmem, hcwnot⟩ := skip_witness key pre post x t hsorted hex
  cases pre with
  | nil =>
    have hcwpost : cw ∈ post := by
      rcases hcwmem with h | h
      · simp at h
      · exact h
    simp only [List.nil_append, alignedKeys, List.map_cons, List.filter_cons]
    have hF : (decide (∀ c2 ∈ post, key x ∈ c2.map key)) = false := by
      rw [decide_eq_false_iff_not]
      intro hall
      exact hcwnot (hall cw hcwpost)
    rw [hF]
    simp only [Bool.false_eq_true, if_false]
  | cons c0 pre2 =>
    simp only [List.cons_append, alignedKeys]
    apply List.filter_congr
    intro k hkmem
    apply decide_eq_decide.mpr
    by_cases hkm : k = key x
    · subst hkm
      have hcw2 : cw ∈ pre2 ++ t :: post ∧ cw ∈ pre2 ++ (x :: t) :: post := by
        rcases hcwmem with h | h
        · rcases List.mem_cons.mp h with h | h
          · exfalso
            subst h
            exact hcwnot hkmem
          · exact ⟨List.mem_append.mpr (Or.inl h), List.mem_append.mpr (Or.inl h)⟩
        · exact ⟨List.mem_append.mpr (Or.inr (List.mem_cons_of_mem _ h)),
            List.mem_append.mpr (Or.inr (List.mem_cons_of_mem _ h))⟩
      constructor
      · intro hall
        exact absurd (hall cw hcw2.1) hcwnot
      · intro hall
        exact absurd (hall cw hcw2.2) hcwnot
    · rw [List.forall_mem_append, List.forall_mem_append,
        List.forall_mem_cons, List.forall_mem_cons]
      have hmid : k ∈ t.map key ↔ k ∈ (x :: t).map key := by
        rw [List.map_cons, List.mem_cons]
        constructor
        · exact Or.inr
        · intro h
          rcases h with h | h
          · exact absurd h hkm
          · exact h
      rw [hmid]

theorem mapM_head?_none_iff (cursors : List (List α)) :
    cursors.mapM List.head? = none ↔ ∃ c ∈ cursors, c = [] := by
  induction cursors with
  | nil =>
    constructor
    · intro h
      rw [List.mapM_nil] at h
      simp [pure] at h
    · intro ⟨c, hc, _⟩
      simp at hc
  | cons c cs ih =>
    rw [List.mapM_cons]
    cases c with
    | nil =>
      simp
    | cons a t =>
      simp only [List.head?_cons, Option.bind_eq_bind, Option.some_bind]
      match hcs : cs.mapM List.head? with
      | none =>
        simp only [Option.none_bind]
        constructor
        · intro _
          obtain ⟨c2, hc2, he⟩ := ih.mp hcs
          exact ⟨c2, List.mem_cons_of_mem _ hc2, he⟩
        · intro _
          trivial
      | some rest =>
        simp only [Option.some_bind, pure]
        constructor
        · intro hh
          simp at hh
        · intro ⟨c2, hc2, he⟩
          rcases List.mem_cons.mp hc2 with hc2 | hc2
          · rw [hc2] at he
            simp at he
          · exact absurd hcs ((ih.mpr ⟨c2, hc2, he⟩) ▸ by simp)

theorem alignedKeys_of_empty_member (key : α → List Char) (cursors : List (List α))
    (h : ∃ c ∈ cursors, c = []) : alignedKeys key cursors = [] := by
  cases cursors with
  | nil => rfl
  | cons c0 cs =>
    obtain ⟨c, hc, he⟩ := h
    rcases List.mem_cons.mp hc with hc | hc
    · rw [hc] at he
      subst he
      simp [alignedKeys]
    · unfold alignedKeys
      apply List.filter_eq_nil_iff.mpr
      intro k _
      simp only [decide_eq_true_eq, not_forall]
      refine ⟨c, hc, ?_⟩
      rw [he]
      simp
  
theorem alignedKeys_mem_all (key : α → List Char) (cursors : List (List α))
    (k : List Char) (hk : k ∈ alignedKeys key cursors) :
    ∀ c ∈ cursors, k ∈ c.map key := by
  cases cursors with
  | nil => simp [alignedKeys] at hk
  | cons c0 cs =>
    unfold alignedKeys at hk
    have := List.of_mem_filter hk
    have hmem := List.mem_of_mem_filter hk
    rw [decide_eq_true_eq] at this
    intro c hc
    rcases List.mem_cons.mp hc with hc | hc
    · exact hc ▸ hmem
    · exact this c hc

theorem forall₂_getD (P : α → γ → Prop) :
    ∀ (l1 : List α) (l2 : List γ), List.Forall₂ P l1 l2 →
      ∀ (i : Nat) (d1 : α) (d2 : γ), i < l1.length → P (l1.getD i d1) (l2.getD i d2) := by
  intro l1 l2 hf
  induction hf with
  | nil =>
    intro i d1 d2 hi
    simp at hi
  | cons hpair hrest ih =>
    intro i d1 d2 hi
    cases i with
    | zero => simpa using hpair
    | succ i2 =>
      simpa using ih i2 d1 d2 (by simpa using hi)

theorem forall₂_exists_left (P : α → γ → Prop) :
    ∀ (l1 : List α) (l2 : List γ), List.Forall₂ P l1 l2 →
      ∀ b ∈ l2, ∃ a ∈ l1, P a b := by
  intro l1 l2 hf
  induction hf with
  | nil =>
    intro b hb
    simp at hb
  | cons hpair hrest ih =>
    intro b hb
    rcases List.mem_cons.mp hb with hb | hb
    · exact ⟨_, by simp, hb ▸ hpair⟩
    · obtain ⟨a, ha, hp⟩ := ih b hb
      exact ⟨a, List.mem_cons_of_mem _ ha, hp⟩

theorem pairwise_tail_of_pairwise (R : α → α → Prop) (c : List α)
    (h : List.Pairwise R c) : List.Pairwise R c.tail := by
  cases c with
  | nil => exact h
  | cons a t =>
    exact (List.pairwise_cons.mp h).2

theorem mem_of_mem_tail' (c : List α) (x : α) (h : x ∈ c.tail) : x ∈ c := by
  cases c with
  | nil => simp at h
  | cons a t => exact List.mem_cons_of_mem _ h

theorem isConstVal_eq_all (val : α → β) [DecidableEq β] (h : α) (t : List α) :
    isConstVal val (h :: t) = (h :: t).all (fun x => decide (val x = val h)) := by
  simp [isConstVal]

theorem foldKeys_congr (key : α → List Char) (val : α → β) [DecidableEq β]
    (fast : Bool) (act : List α → σ → Option σ)
    (cursors1 cursors2 : List (List α)) :
    ∀ (ks : List (List Char)),
      (∀ k ∈ ks, groupAt key cursors1 k = groupAt key cursors2 k) →
      ∀ st, foldKeys key val fast act cursors1 ks st =
        foldKeys key val fast act cursors2 ks st := by
  intro ks
  induction ks with
  | nil =>
    intro _ st
    rfl
  | cons k ks2 ih =>
    intro hg st
    have hk := hg k (by simp)
    have hrest := fun k2 hk2 => hg k2 (List.mem_cons_of_mem _ hk2)
    unfold foldKeys
    rw [hk]
    by_cases hc : (fast && isConstVal val (groupAt key cursors2 k)) = true
    · rw [if_pos hc, if_pos hc]
      exact ih hrest st
    · rw [if_neg hc, if_neg hc]
      cases act (groupAt key cursors2 k) st with
      | none => rfl
      | some st2 =>
        simp only
        exact ih hrest st2

/-- The central loop characterization: whenever a merge loop terminates, its
result is the fold of the aligned bodies over the aligned keys (the keys
present in every cursor), with value-constant groups skipped when the fast
path is on.  Requires strictly sorted cursors and, when the fast path is on,
that equal values never occur under different keys. -/
theorem mergeLoopFuel_foldKeys (key : α → List Char) (val : α → β) [DecidableEq β]
    (fast : Bool) (act : List α → σ → Option σ) :
    ∀ (fuel : Nat) (cursors : List (List α)) (st s : σ),
      cursors ≠ [] →
      (∀ c ∈ cursors, List.Pairwise (fun a b => key a < key b) c) →
      (fast = true → ∀ c1 ∈ cursors, ∀ x ∈ c1, ∀ c2 ∈ cursors, ∀ y ∈ c2,
        val x = val y → key x = key y) →
      mergeLoopFuel key val fast act fuel cursors st = some s →
      foldKeys key val fast act cursors (alignedKeys key cursors) st = some s := by
  intro fuel
  induction fuel with
  | zero =>
    intro cursors st s _ _ _ hrun
    simp [mergeLoopFuel] at hrun
  | succ fuel ih =>
    intro cursors st s hne hsorted hinj hrun
    rw [mergeLoopFuel] at hrun
    split at hrun
    · rename_i heq
      have hst : st = s := by
        simpa using hrun
      subst hst
      rw [alignedKeys_of_empty_member key cursors ((mapM_head?_none_iff cursors).mp heq)]
      rfl
    · rename_i heads heq
      split at hrun
      · have hf := (mapM_head?_some_iff cursors []).mp heq
        cases hf
        exact absurd rfl hne
      · rename_i h0 hs'
        have hf := (mapM_head?_some_iff cursors (h0 :: hs')).mp heq
        have hlen : cursors.length = (h0 :: hs').length := List.Forall₂.length_eq hf
        have hmemel : ∀ h ∈ h0 :: hs', ∃ c ∈ cursors, List.head? c = some h :=
          forall₂_exists_left _ cursors (h0 :: hs') hf
        have hheadmem : ∀ (c : List α) (h : α), List.head? c = some h → h ∈ c := by
          intro c h hch
          cases c with
          | nil => simp at hch
          | cons a t =>
            have : a = h := by simpa using hch
            rw [← this]
            exact List.mem_cons_self a t
        split at hrun
        · -- fast path: all values equal
          rename_i hcond
          rw [Bool.and_eq_true] at hcond
          have hfast : fast = true := hcond.1
          have hvals : ∀ h ∈ h0 :: hs', val h = val h0 := by
            intro h hh
            have := List.all_eq_true.mp hcond.2 h hh
            simpa using this
          have hkeys : ∀ h ∈ h0 :: hs', key h = key h0 := by
            intro h hh
            obtain ⟨c, hc, hch⟩ := hmemel h hh
            obtain ⟨c2, hc2, hc2h⟩ := hmemel h0 (by simp)
            exact hinj hfast c hc h (hheadmem c h hch) c2 hc2 h0
              (hheadmem c2 h0 hc2h) (hvals h hh)
          obtain ⟨hgroup, hgroups⟩ :=
            groupAt_aligned key (key h0) cursors (h0 :: hs') hf hkeys
          cases cursors with
          | nil => exact absurd rfl hne
          | cons c0 cs =>
            cases hf with
            | cons hp0 hfrest =>
              rw [alignedKeys_aligned key (key h0) c0 cs h0 hs' hp0 hfrest hsorted hkeys]
              rw [foldKeys]
              rw [hgroup]
              rw [if_pos (by
                rw [Bool.and_eq_true]
                refine ⟨hfast, ?_⟩
                rw [isConstVal_eq_all]
                exact hcond.2)]
              obtain ⟨a, t0, hc0eq, _⟩ :=
                forall₂_head_key key (key h0) (c0 :: cs) (h0 :: hs')
                  (List.Forall₂.cons hp0 hfrest) hkeys c0 (by simp)
              have hsubk : ∀ k ∈ alignedKeys key ((c0 :: cs).map List.tail),
                  k ≠ key h0 := by
                intro k hk hkk
                have hmem1 : k ∈ (c0.tail).map key := by
                  have := alignedKeys_mem_all key ((c0 :: cs).map List.tail) k hk
                  exact this c0.tail (by
                    rw [List.map_cons]
                    exact List.mem_cons_self _ _)
                rw [hc0eq] at hmem1
                simp only [List.tail_cons] at hmem1
                obtain ⟨y, hy, hky⟩ := List.mem_map.mp hmem1
                have hsort0 := hsorted c0 (by simp)
                rw [hc0eq] at hsort0
                have hlt := (List.pairwise_cons.mp hsort0).1 y hy
                have hka : key a = key h0 := by
                  have : a = h0 := by
                    rw [hc0eq] at hp0
                    simpa using hp0
                  rw [this]
                rw [hka, hky, hkk] at hlt
                exact absurd hlt (lt_irrefl _)
              rw [foldKeys_congr key val fast act (c0 :: cs) ((c0 :: cs).map List.tail)
                (alignedKeys key ((c0 :: cs).map List.tail))
                (fun k hk => hgroups k (hsubk k hk)) st]
              apply ih ((c0 :: cs).map List.tail) st s (by simp)
              · intro c hc
                obtain ⟨c2, hc2, hceq⟩ := List.mem_map.mp hc
                rw [← hceq]
                exact pairwise_tail_of_pairwise _ c2 (hsorted c2 hc2)
              · intro _ c1 hc1 x hx c2 hc2 y hy hval
                obtain ⟨d1, hd1, hd1eq⟩ := List.mem_map.mp hc1
                obtain ⟨d2, hd2, hd2eq⟩ := List.mem_map.mp hc2
                exact hinj hfast d1 hd1 x (mem_of_mem_tail' d1 x (hd1eq ▸ hx))
                  d2 hd2 y (mem_of_mem_tail' d2 y (hd2eq ▸ hy)) hval
              · exact hrun
        · -- fast path not taken
          rename_i hcondfast
          split at hrun
          · -- aligned: all keys equal, run the body
            rename_i hcond
            have hkeys : ∀ h ∈ h0 :: hs', key h = key h0 := by
              intro h hh
              have := List.all_eq_true.mp hcond h hh
              simpa using this
            obtain ⟨hgroup, hgroups⟩ :=
              groupAt_aligned key (key h0) cursors (h0 :: hs') hf hkeys
            split at hrun
            · simp at hrun
            · rename_i st2 hact
              cases cursors with
              | nil => exact absurd rfl hne
              | cons c0 cs =>
                cases hf with
                | cons hp0 hfrest =>
                  rw [alignedKeys_aligned key (key h0) c0 cs h0 hs' hp0 hfrest
                    hsorted hkeys]
                  rw [foldKeys]
                  rw [hgroup]
                  rw [if_neg (by
                    intro hcc
                    apply hcondfast
                    rw [Bool.and_eq_true] at hcc
                    rw [Bool.and_eq_true]
                    refine ⟨hcc.1, ?_⟩
                    rw [← isConstVal_eq_all]
                    exact hcc.2)]
                  rw [hact]
                  dsimp only
                  obtain ⟨a, t0, hc0eq, _⟩ :=
                    forall₂_head_key key (key h0) (c0 :: cs) (h0 :: hs')
                      (List.Forall₂.cons hp0 hfrest) hkeys c0 (by simp)
                  have hsubk : ∀ k ∈ alignedKeys key ((c0 :: cs).map List.tail),
                      k ≠ key h0 := by
                    intro k hk hkk
                    have hmem1 : k ∈ (c0.tail).map key := by
                      have := alignedKeys_mem_all key ((c0 :: cs).map List.tail) k hk
                      exact this c0.tail (by
                        rw [List.map_cons]
                        exact List.mem_cons_self _ _)
                    rw [hc0eq] at hmem1
                    simp only [List.tail_cons] at hmem1
                    obtain ⟨y, hy, hky⟩ := List.mem_map.mp hmem1
                    have hsort0 := hsorted c0 (by simp)
                    rw [hc0eq] at hsort0
                    have hlt := (List.pairwise_cons.mp hsort0).1 y hy
                    have hka : key a = key h0 := by
                      have : a = h0 := by
                        rw [hc0eq] at hp0
                        simpa using hp0
                      rw [this]
                    rw [hka, hky, hkk] at hlt
                    exact absurd hlt (lt_irrefl _)
                  rw [foldKeys_congr key val fast act (c0 :: cs)
                    ((c0 :: cs).map List.tail)
                    (alignedKeys key ((c0 :: cs).map List.tail))
                    (fun k hk => hgroups k (hsubk k hk)) st2]
                  apply ih ((c0 :: cs).map List.tail) st2 s (by simp)
                  · intro c hc
                    obtain ⟨c2, hc2, hceq⟩ := List.mem_map.mp hc
                    rw [← hceq]
                    exact pairwise_tail_of_pairwise _ c2 (hsorted c2 hc2)
                  · intro hfast c1 hc1 x hx c2 hc2 y hy hval
                    obtain ⟨d1, hd1, hd1eq⟩ := List.mem_map.mp hc1
                    obtain ⟨d2, hd2, hd2eq⟩ := List.mem_map.mp hc2
                    exact hinj hfast d1 hd1 x (mem_of_mem_tail' d1 x (hd1eq ▸ hx))
                      d2 hd2 y (mem_of_mem_tail' d2 y (hd2eq ▸ hy)) hval
                  · exact hrun
          · -- skip: advance the iterator with the smallest key
            rename_i hcondalign
            rw [List.tail_cons] at hrun
            have hspec := findMinIdx_spec key h0 (h0 :: hs') (h0 :: hs').length 1
              (key h0) 0 (by omega) (by simp) (by simp) (by
                intro x hx
                simp only [List.take_succ_cons, List.take_zero] at hx
                rw [List.mem_singleton.mp hx])
            simp only [List.drop_one, List.tail_cons] at hspec
            obtain ⟨hjlt, hjmin⟩ := hspec
            have hjltc : findMinIdx key hs' (key h0) 0 1 < cursors.length := by
              omega
            have hcjhead : List.head?
                (cursors.getD (findMinIdx key hs' (key h0) 0 1) []) =
                some ((h0 :: hs').getD (findMinIdx key hs' (key h0) 0 1) h0) :=
              forall₂_getD _ cursors (h0 :: hs') hf _ [] h0 hjltc
            have hsplit : cursors = cursors.take (findMinIdx key hs' (key h0) 0 1) ++
                cursors.getD (findMinIdx key hs' (key h0) 0 1) [] ::
                cursors.drop (findMinIdx key hs' (key h0) 0 1 + 1) := by
              conv_lhs => rw [← List.take_append_drop
                (findMinIdx key hs' (key h0) 0 1) cursors]
              congr 1
              rw [List.getD_eq_getElem _ _ hjltc]
              exact List.drop_eq_getElem_cons hjltc
            have hprelen : (cursors.take (findMinIdx key hs' (key h0) 0 1)).length =
                findMinIdx key hs' (key h0) 0 1 := by
              rw [List.length_take]
              omega
            cases hcj : cursors.getD (findMinIdx key hs' (key h0) 0 1) [] with
            | nil =>
              rw [hcj] at hcjhead
              simp at hcjhead
            | cons xj tj =>
              rw [hcj] at hcjhead hsplit
              have hxj : xj = (h0 :: hs').getD (findMinIdx key hs' (key h0) 0 1) h0 := by
                simpa using hcjhead
              have hda := dropHeadAt_append
                (cursors.take (findMinIdx key hs' (key h0) 0 1)) (xj :: tj)
                (cursors.drop (findMinIdx key hs' (key h0) 0 1 + 1))
              rw [hprelen, List.tail_cons] at hda
              have hdropeq : dropHeadAt cursors (findMinIdx key hs' (key h0) 0 1) =
                  cursors.take (findMinIdx key hs' (key h0) 0 1) ++ tj ::
                  cursors.drop (findMinIdx key hs' (key h0) 0 1 + 1) := by
                conv_lhs => rw [hsplit]
                exact hda
              rw [hdropeq] at hrun
              have hsorted2 : ∀ c ∈ cursors.take (findMinIdx key hs' (key h0) 0 1) ++
                  (xj :: tj) :: cursors.drop (findMinIdx key hs' (key h0) 0 1 + 1),
                  List.Pairwise (fun a b => key a < key b) c := by
                intro c hc
                exact hsorted c (hsplit ▸ hc)
              have hxm : ∀ h ∈ h0 :: hs', key xj ≤ key h := by
                intro h hh
                rw [hxj]
                exact hjmin h hh
              have hexh : ∃ h ∈ h0 :: hs', key xj < key h := by
                by_contra hno
                push_neg at hno
                apply hcondalign
                rw [List.all_eq_true]
                intro x hx
                have h1 : key x ≤ key xj := hno x hx
                have h2 : key xj ≤ key x := hxm x hx
                have h3 : key x = key xj := le_antisymm h1 h2
                have h4 : key h0 = key xj :=
                  le_antisymm (hno h0 (by simp)) (hxm h0 (by simp))
                rw [decide_eq_true_eq, h3, h4]
              have hex : ∃ c ∈ cursors.take (findMinIdx key hs' (key h0) 0 1) ++
                  (xj :: tj) :: cursors.drop (findMinIdx key hs' (key h0) 0 1 + 1),
                  ∃ h, List.head? c = some h ∧ key xj < key h := by
                obtain ⟨h, hh, hlt⟩ := hexh
                obtain ⟨c, hc, hch⟩ := hmemel h hh
                exact ⟨c, hsplit ▸ hc, h, hch, hlt⟩
              obtain ⟨cw, hcwmem, hcwnot⟩ := skip_witness key _ _ xj tj hsorted2 hex
              have hknem : ∀ k ∈ alignedKeys key
                  (cursors.take (findMinIdx key hs' (key h0) 0 1) ++
                  (xj :: tj) :: cursors.drop (findMinIdx key hs' (key h0) 0 1 + 1)),
                  k ≠ key xj := by
                intro k hk hkk
                have hcwfull : cw ∈ cursors.take (findMinIdx key hs' (key h0) 0 1) ++
                    (xj :: tj) :: cursors.drop (findMinIdx key hs' (key h0) 0 1 + 1) := by
                  rcases hcwmem with h | h
                  · exact List.mem_append.mpr (Or.inl h)
                  · exact List.mem_append.mpr (Or.inr (List.mem_cons_of_mem _ h))
                have := alignedKeys_mem_all key _ k hk cw hcwfull
                rw [hkk] at this
                exact hcwnot this
              rw [hsplit]
              rw [← alignedKeys_skip key _ _ xj tj hsorted2 hex]
              rw [foldKeys_congr key val fast act _
                (cursors.take (findMinIdx key hs' (key h0) 0 1) ++ tj ::
                  cursors.drop (findMinIdx key hs' (key h0) 0 1 + 1))
                _ (fun k hk => by
                  have hk2 : k ∈ alignedKeys key
                      (cursors.take (findMinIdx key hs' (key h0) 0 1) ++
                      (xj :: tj) :: cursors.drop
                        (findMinIdx key hs' (key h0) 0 1 + 1)) := by
                    rw [alignedKeys_skip key _ _ xj tj hsorted2 hex] at hk
                    exact hk
                  exact (groupAt_skip key _ _ xj tj k (hknem k hk2)).symm) st]
              apply ih _ st s (by simp)
              · intro c hc
                rcases List.mem_append.mp hc with hc | hc
                · exact hsorted c (hsplit ▸ List.mem_append.mpr (Or.inl hc))
                · rcases List.mem_cons.mp hc with hc | hc
                  · rw [hc]
                    have := hsorted (xj :: tj)
                      (hsplit ▸ List.mem_append.mpr (Or.inr (List.mem_cons_self _ _)))
                    exact pairwise_tail_of_pairwise _ (xj :: tj) this
                  · exact hsorted c
                      (hsplit ▸ List.mem_append.mpr (Or.inr (List.mem_cons_of_mem _ hc)))
              · intro hfast c1 hc1 x hx c2 hc2 y hy hval
                have hup : ∀ c3 ∈ cursors.take (findMinIdx key hs' (key h0) 0 1) ++ tj ::
                    cursors.drop (findMinIdx key hs' (key h0) 0 1 + 1),
                    ∀ z ∈ c3, ∃ c4 ∈ cursors, z ∈ c4 := by
                  intro c3 hc3 z hz
                  rcases List.mem_append.mp hc3 with hc3 | hc3
                  · exact ⟨c3, hsplit ▸ List.mem_append.mpr (Or.inl hc3), hz⟩
                  · rcases List.mem_cons.mp hc3 with hc3 | hc3
                    · refine ⟨xj :: tj,
                        hsplit ▸ List.mem_append.mpr
                          (Or.inr (List.mem_cons_self _ _)), ?_⟩
                      rw [hc3] at hz
                      exact List.mem_cons_of_mem _ hz
                    · exact ⟨c3, hsplit ▸ List.mem_append.mpr
                        (Or.inr (List.mem_cons_of_mem _ hc3)), hz⟩
                obtain ⟨d1, hd1, hxd1⟩ := hup c1 hc1 x hx
                obtain ⟨d2, hd2, hyd2⟩ := hup c2 hc2 y hy
                exact hinj hfast d1 hd1 x hxd1 d2 hd2 y hyd2 hval
              · exact hrun

theorem forall₂_append_build {R : α → γ → Prop} :
    ∀ {l1 l2 : List α} {g1 g2 : List γ},
      List.Forall₂ R l1 g1 → List.Forall₂ R l2 g2 →
      List.Forall₂ R (l1 ++ l2) (g1 ++ g2) := by
  intro l1 l2 g1 g2 h1 h2
  induction h1 with
  | nil => simpa using h2
  | cons hab hrest ih => exact List.Forall₂.cons hab ih

theorem forall₂_middle_split {R : α → γ → Prop} :
    ∀ (pre : List α) (c : α) (post : List α) (g : List γ),
      List.Forall₂ R (pre ++ c :: post) g →
      ∃ g1 y g2, g = g1 ++ y :: g2 ∧ List.Forall₂ R pre g1 ∧ R c y ∧
        List.Forall₂ R post g2 := by
  intro pre
  induction pre with
  | nil =>
    intro c post g h
    rw [List.nil_append] at h
    cases h with
    | cons hcy hrest =>
      rename_i y g2
      exact ⟨[], y, g2, rfl, List.Forall₂.nil, hcy, hrest⟩
  | cons a pre ih =>
    intro c post g h
    rw [List.cons_append] at h
    cases h with
    | cons hay hrest =>
      rename_i y g2
      obtain ⟨g1, y2, g3, hgeq, hpre, hcy, hpost⟩ := ih c post g2 hrest
      exact ⟨y :: g1, y2, g3, by rw [hgeq]; rfl,
        List.Forall₂.cons hay hpre, hcy, hpost⟩

theorem forall₂_sum_tails :
    ∀ (cursors : List (List α)) (heads : List γ),
      List.Forall₂ (fun c _ => True ∧ c ≠ []) cursors heads →
      ((cursors.map List.tail).map List.length).sum + cursors.length =
        (cursors.map List.length).sum := by
  intro cursors heads hf
  induction hf with
  | nil => rfl
  | cons hpair hrest ih =>
    rename_i c1 h1 cs1 hs1
    cases c1 with
    | nil => exact absurd rfl hpair.2
    | cons a t =>
      simp only [List.map_cons, List.tail_cons, List.sum_cons, List.length_cons]
      omega

/-- Fuel sufficiency: with a nonempty cursor family and fuel exceeding the
total number of cursor elements, the loop terminates (returns `some`),
provided the aligned body always does. -/
theorem mergeLoopFuel_isSome (key : α → List Char) (val : α → β) [DecidableEq β]
    (fast : Bool) (act : List α → σ → Option σ) :
    ∀ (fuel : Nat) (cursors : List (List α)) (st : σ),
      cursors ≠ [] →
      (cursors.map List.length).sum + 1 ≤ fuel →
      (∀ g st2, List.Forall₂ (fun (c : List α) (x : α) => x ∈ c) cursors g →
        (act g st2).isSome = true) →
      (mergeLoopFuel key val fast act fuel cursors st).isSome = true := by
  intro fuel
  induction fuel with
  | zero =>
    intro cursors st _ hfuel _
    omega
  | succ fuel ih =>
    intro cursors st hne hfuel hact
    rw [mergeLoopFuel]
    split
    · simp
    · rename_i heads heq
      split
      · have hf := (mapM_head?_some_iff cursors []).mp heq
        cases hf
        exact absurd rfl hne
      · rename_i h0 hs'
        have hf := (mapM_head?_some_iff cursors (h0 :: hs')).mp heq
        have hlen : cursors.length = (h0 :: hs').length := List.Forall₂.length_eq hf
        have hnonempty : List.Forall₂ (fun (c : List α) (h : α) => True ∧ c ≠ [])
            cursors (h0 :: hs') := by
          apply List.Forall₂.imp _ hf
          intro c h hch
          refine ⟨trivial, ?_⟩
          intro hc
          rw [hc] at hch
          simp at hch
        have hsum := forall₂_sum_tails cursors (h0 :: hs') hnonempty
        have hNpos : 0 < cursors.length := by
          cases cursors with
          | nil => exact absurd rfl hne
          | cons a b => simp
        have hheadmem : ∀ (c : List α) (h : α), List.head? c = some h → h ∈ c := by
          intro c h hch
          cases c with
          | nil => simp at hch
          | cons a t =>
            have : a = h := by simpa using hch
            rw [← this]
            exact List.mem_cons_self a t
        have hupf : List.Forall₂ (fun (c : List α) (x : α) => x ∈ c)
            cursors (h0 :: hs') :=
          List.Forall₂.imp (fun c h hch => hheadmem c h hch) hf
        have htails : ∀ st2, (mergeLoopFuel key val fast act fuel
            (cursors.map List.tail) st2).isSome = true := by
          intro st2
          apply ih (cursors.map List.tail) st2 (by
            intro hmap
            rw [List.map_eq_nil_iff] at hmap
            exact hne hmap)
          · omega
          · intro g st3 hmem
            apply hact g st3
            have h2 := List.forall₂_map_left_iff.mp hmem
            exact List.Forall₂.imp (fun c x hx => mem_of_mem_tail' c x hx) h2
        split
        · exact htails st
        · split
          · -- aligned: run act then recurse
            have hsome := hact (h0 :: hs') st hupf
            split
            · rename_i hactv
              rw [hactv] at hsome
              simp at hsome
            · rename_i st2 hactv
              exact htails st2
          · -- skip
            rw [List.tail_cons]
            have hjltc : findMinIdx key hs' (key h0) 0 1 < cursors.length := by
              have hspec := findMinIdx_spec key h0 (h0 :: hs') (h0 :: hs').length 1
                (key h0) 0 (by omega) (by simp) (by simp) (by
                  intro x hx
                  simp only [List.take_succ_cons, List.take_zero] at hx
                  rw [List.mem_singleton.mp hx])
              simp only [List.drop_one, List.tail_cons] at hspec
              omega
            have hcjhead : List.head?
                (cursors.getD (findMinIdx key hs' (key h0) 0 1) []) =
                some ((h0 :: hs').getD (findMinIdx key hs' (key h0) 0 1) h0) :=
              forall₂_getD _ cursors (h0 :: hs') hf _ [] h0 hjltc
            have hsplit : cursors = cursors.take (findMinIdx key hs' (key h0) 0 1) ++
                cursors.getD (findMinIdx key hs' (key h0) 0 1) [] ::
                cursors.drop (findMinIdx key hs' (key h0) 0 1 + 1) := by
              conv_lhs => rw [← List.take_append_drop
                (findMinIdx key hs' (key h0) 0 1) cursors]
              congr 1
              rw [List.getD_eq_getElem _ _ hjltc]
              exact List.drop_eq_getElem_cons hjltc
            have hprelen : (cursors.take (findMinIdx key hs' (key h0) 0 1)).length =
                findMinIdx key hs' (key h0) 0 1 := by
              rw [List.length_take]
              omega
            cases hcj : cursors.getD (findMinIdx key hs' (key h0) 0 1) [] with
            | nil =>
              rw [hcj] at hcjhead
              simp at hcjhead
            | cons xj tj =>
              rw [hcj] at hsplit
              have hda := dropHeadAt_append
                (cursors.take (findMinIdx key hs' (key h0) 0 1)) (xj :: tj)
                (cursors.drop (findMinIdx key hs' (key h0) 0 1 + 1))
              rw [hprelen, List.tail_cons] at hda
              have hdropeq : dropHeadAt cursors (findMinIdx key hs' (key h0) 0 1) =
                  cursors.take (findMinIdx key hs' (key h0) 0 1) ++ tj ::
                  cursors.drop (findMinIdx key hs' (key h0) 0 1 + 1) := by
                conv_lhs => rw [hsplit]
                exact hda
              rw [hdropeq]
              have hsums : ((cursors.take (findMinIdx key hs' (key h0) 0 1) ++ tj ::
                  cursors.drop (findMinIdx key hs' (key h0) 0 1 + 1)).map
                    List.length).sum + 1 = (cursors.map List.length).sum := by
                conv_rhs => rw [hsplit]
                simp only [List.map_append, List.map_cons, List.sum_append,
                  List.sum_cons, List.length_cons]
                omega
              apply ih _ st (by simp)
              · omega
              · intro g st3 hmem
                apply hact g st3
                obtain ⟨g1, y, g2, hgeq, hpre, hy, hpost⟩ :=
                  forall₂_middle_split
                    (cursors.take (findMinIdx key hs' (key h0) 0 1)) tj
                    (cursors.drop (findMinIdx key hs' (key h0) 0 1 + 1)) g hmem
                rw [hgeq]
                conv_lhs => rw [hsplit]
                exact forall₂_append_build hpre
                  (List.Forall₂.cons (List.mem_cons_of_mem xj hy) hpost)

/-! ### Termination: fuel sufficiency for the walk, and the empty-run divergence -/

theorem bigSize_pos (t : ResultTree) : 1 ≤ t.bigSize := by
  cases t with
  | mk tests trees =>
    rw [ResultTree.bigSize]
    omega

theorem sizeList_entry :
    ∀ (l : List (String × ResultTree)) (p : String × ResultTree), p ∈ l →
      p.2.bigSize + 1 ≤ ResultTree.sizeList l := by
  intro l
  induction l with
  | nil =>
    intro p hp
    simp at hp
  | cons a rest ih =>
    intro p hp
    obtain ⟨an, au⟩ := a
    rw [ResultTree.sizeList]
    rcases List.mem_cons.mp hp with h | h
    · subst h
      show au.bigSize + 1 ≤ 1 + au.bigSize + ResultTree.sizeList rest
      omega
    · have := ih p h
      omega

theorem sizeList_length_le (l : List (String × ResultTree)) :
    l.length ≤ ResultTree.sizeList l := by
  induction l with
  | nil => simp [ResultTree.sizeList]
  | cons a rest ih =>
    obtain ⟨an, au⟩ := a
    rw [ResultTree.sizeList, List.length_cons]
    omega

theorem sortedTests_length_bigSize (t : ResultTree) :
    (sortedTests t).length + 1 ≤ t.bigSize := by
  cases t with
  | mk tests trees =>
    show (List.insertionSort keyLe tests).length + 1 ≤
      1 + tests.length + ResultTree.sizeList trees
    rw [List.length_insertionSort]
    omega

theorem sortedTrees_length_bigSize (t : ResultTree) :
    (sortedTrees t).length + 1 ≤ t.bigSize := by
  cases t with
  | mk tests trees =>
    show (List.insertionSort keyLe trees).length + 1 ≤
      1 + tests.length + ResultTree.sizeList trees
    rw [List.length_insertionSort]
    have := sizeList_length_le trees
    omega

theorem sizeList_lt_bigSize (t : ResultTree) :
    ResultTree.sizeList t.trees + 1 ≤ t.bigSize := by
  cases t with
  | mk tests trees =>
    show ResultTree.sizeList trees + 1 ≤ 1 + tests.length + ResultTree.sizeList trees
    omega

theorem sum_map_succ (f : α → Nat) :
    ∀ (l : List α), (l.map (fun a => f a + 1)).sum = (l.map f).sum + l.length := by
  intro l
  induction l with
  | nil => rfl
  | cons a rest ih =>
    simp only [List.map_cons, List.sum_cons, List.length_cons]
    omega

theorem forall₂_sum_le {f : γ → Nat} {h : α → Nat} :
    ∀ {l : List α} {g : List γ}, List.Forall₂ (fun a b => f b ≤ h a) l g →
      (g.map f).sum ≤ (l.map h).sum := by
  intro l g hf
  induction hf with
  | nil => simp
  | cons hab _ ih =>
    simp only [List.map_cons, List.sum_cons]
    omega

/-- Fuel sufficiency for the tree walk: any nonempty browser-tree list is fully
walked with fuel `walkBound trees`. -/
theorem walkTreesGenFuel_isSome (fast : Bool) :
    ∀ (fuel : Nat) (trees : List ResultTree) (scores : List ℚ),
      trees ≠ [] → walkBound trees ≤ fuel →
      (walkTreesGenFuel fast fuel trees scores).isSome = true := by
  intro fuel
  induction fuel with
  | zero =>
    intro trees scores _ hb
    rw [walkBound] at hb
    omega
  | succ fuel ih =>
    intro trees scores hne hb
    have hN : 0 < trees.length := List.length_pos.mpr hne
    have hsum : (trees.map ResultTree.bigSize).sum ≤ fuel := by
      rw [walkBound] at hb
      omega
    have htlen : ((trees.map sortedTests).map List.length).sum + trees.length ≤
        (trees.map ResultTree.bigSize).sum := by
      rw [List.map_map]
      have h1 : (trees.map (fun t => (List.length ∘ sortedTests) t + 1)).sum ≤
          (trees.map ResultTree.bigSize).sum :=
        List.sum_le_sum (fun t _ => sortedTests_length_bigSize t)
      rw [sum_map_succ] at h1
      exact h1
    have htreelen : ((trees.map sortedTrees).map List.length).sum + trees.length ≤
        (trees.map ResultTree.bigSize).sum := by
      rw [List.map_map]
      have h1 : (trees.map (fun t => (List.length ∘ sortedTrees) t + 1)).sum ≤
          (trees.map ResultTree.bigSize).sum :=
        List.sum_le_sum (fun t _ => sortedTrees_length_bigSize t)
      rw [sum_map_succ] at h1
      exact h1
    have hchild : (trees.map (fun t => ResultTree.sizeList t.trees)).sum +
        trees.length ≤ (trees.map ResultTree.bigSize).sum := by
      have h1 : (trees.map (fun t =>
          (fun t => ResultTree.sizeList t.trees) t + 1)).sum ≤
          (trees.map ResultTree.bigSize).sum :=
        List.sum_le_sum (fun t _ => sizeList_lt_bigSize t)
      rw [sum_map_succ] at h1
      exact h1
    rw [walkTreesGenFuel]
    have htests : (mergeLoopFuel (fun p => nameKey p.1) Prod.snd fast
        (fun g st => some (scoreTest (g.map Prod.snd) st)) fuel
        (trees.map sortedTests) scores).isSome = true := by
      apply mergeLoopFuel_isSome
      · intro hmap
        rw [List.map_eq_nil_iff] at hmap
        exact hne hmap
      · omega
      · intro g st2 _
        rfl
    split
    · rename_i heq
      rw [heq] at htests
      simp at htests
    · rename_i s heq
      apply mergeLoopFuel_isSome
      · intro hmap
        rw [List.map_eq_nil_iff] at hmap
        exact hne hmap
      · omega
      · intro g st2 hmem
        have hmem2 : List.Forall₂ (fun (t : ResultTree) (x : String × ResultTree) =>
            x.2.bigSize + 1 ≤ ResultTree.sizeList t.trees) trees g := by
          have h2 := List.forall₂_map_left_iff.mp hmem
          apply List.Forall₂.imp _ h2
          intro t x hx
          rw [sortedTrees] at hx
          have hx2 : x ∈ t.trees :=
            (List.perm_insertionSort keyLe t.trees).mem_iff.mp hx
          exact sizeList_entry t.trees x hx2
        have hsum2 :
            (g.map (fun (x : String × ResultTree) => x.2.bigSize + 1)).sum ≤
            (trees.map (fun t => ResultTree.sizeList t.trees)).sum :=
          forall₂_sum_le hmem2
        rw [sum_map_succ] at hsum2
        have hglen : g.length = trees.length := by
          have h3 := List.Forall₂.length_eq hmem
          simpa using h3.symm
        apply ih (g.map Prod.snd) st2
        · intro hmap
          rw [List.map_eq_nil_iff] at hmap
          rw [hmap] at hglen
          simp at hglen
          omega
        · rw [walkBound, List.map_map]
          have hc : g.map (ResultTree.bigSize ∘ Prod.snd) =
              g.map (fun (x : String × ResultTree) => x.2.bigSize) := by
            apply List.map_congr_left
            intro x _
            rfl
          rw [hc]
          omega

/-- The merge loop on an empty cursor family makes no progress: the guard
`[].every(...)` is vacuously true, no cursor advances, and the fuel runs out
(the source loops forever). -/
theorem mergeLoopFuel_nil (key : α → List Char) (val : α → β) [DecidableEq β]
    (fast : Bool) (act : List α → σ → Option σ) :
    ∀ (fuel : Nat) (st : σ),
      mergeLoopFuel key val fast act fuel ([] : List (List α)) st = none := by
  intro fuel
  induction fuel with
  | zero =>
    intro st
    rfl
  | succ fuel ih =>
    intro st
    exact ih st

/-- `walkTrees([], scores)` never returns. -/
theorem walkTreesGenFuel_nil (fast : Bool) :
    ∀ (fuel : Nat) (scores : List ℚ),
      walkTreesGenFuel fast fuel ([] : List ResultTree) scores = none := by
  intro fuel scores
  cases fuel with
  | zero => rfl
  | succ fuel =>
    rw [walkTreesGenFuel]
    simp [mergeLoopFuel_nil]

/-- **C9 counterexample**: the empty run set together with an empty expected
browser set passes validation, yet `scoreBrowserSpecificFailures` never
terminates on it: the `walkTrees` loop guard `browserTrees.every(...)` is
vacuously true for zero browsers, no iterator ever advances, and the embedded
walk returns `none` (fuel exhausted) at every fuel.  This refutes the claim
that every validated run set terminates normally. -/
theorem claim_C9_counterexample :
    validateRuns [] [] = Except.ok () ∧
    ∀ fuel : Nat, scoreBrowserSpecificFailures fuel [] [] = Except.ok none := by
  constructor
  · rfl
  · intro fuel
    unfold scoreBrowserSpecificFailures
    rw [show validateRuns [] [] = Except.ok () from rfl]
    rw [show ([] : List Run).map Run.tree = [] from rfl]
    rw [walkTreesGenFuel_nil]

/-- **C9** (amended): for every *nonempty* run set that passes validation,
`scoreBrowserSpecificFailures` terminates normally and raises no error: with
any fuel at least `walkBound` of the run trees (each loop iteration advances
at least one cursor over finite collections and the recursion descends into
strictly smaller subtrees), it returns the score map pairing each browser
name with a score.  For the empty run set, validation can succeed but the
walk never terminates. -/
theorem claim_C9 (fuel : Nat) (runs : List Run) (expected : List String)
    (hne : runs ≠ [])
    (hval : validateRuns runs expected = Except.ok ())
    (hfuel : walkBound (runs.map Run.tree) ≤ fuel) :
    ∃ scores, scoreBrowserSpecificFailures fuel runs expected =
      Except.ok (some ((runs.map Run.browser_name).zip scores)) := by
  have h := walkTreesGenFuel_isSome true fuel (runs.map Run.tree)
    (List.replicate runs.length 0)
    (by
      intro hmap
      rw [List.map_eq_nil_iff] at hmap
      exact hne hmap) hfuel
  obtain ⟨scores, hscores⟩ := Option.isSome_iff_exists.mp h
  refine ⟨scores, ?_⟩
  unfold scoreBrowserSpecificFailures
  rw [hval, hscores]

/-- Witness for C9 at a concrete validated singleton run set. -/
theorem claim_C9_witness :
    ∃ scores,
      scoreBrowserSpecificFailures 2 [Run.mk "chrome" (ResultTree.mk [] [])]
        ["chrome"] =
      Except.ok (some ((([Run.mk "chrome" (ResultTree.mk [] [])]).map
        Run.browser_name).zip scores)) :=
  claim_C9 2 [Run.mk "chrome" (ResultTree.mk [] [])] ["chrome"]
    (by simp) (by rfl) (by decide)

/-! ### Identical trees: the fast path and the no-fast-path variant -/

theorem countP_enumFrom (p : α → Bool) :
    ∀ (l : List α) (k : Nat),
      (List.enumFrom k l).countP (fun x => p x.2) = l.countP p := by
  intro l
  induction l with
  | nil =>
    intro k
    rfl
  | cons a rest ih =>
    intro k
    show List.countP (fun x => p x.2) ((k, a) :: List.enumFrom (k + 1) rest) =
      List.countP p (a :: rest)
    rw [List.countP_cons, List.countP_cons, ih (k + 1)]

theorem failedIndices_length (p : α → Bool) (l : List α) :
    (failedIndices p l).length = l.countP p := by
  rw [failedIndices, List.length_map, ← List.countP_eq_length_filter]
  exact countP_enumFrom p l 0

/-- On a family of `n` identical cursors the loop preserves every state
invariant that the body preserves on groups of `n` identical elements; with
the fast path on the body is never invoked at all, so no invariant on the
body is needed. -/
theorem mergeLoopFuel_replicate (key : α → List Char) (val : α → β) [DecidableEq β]
    (fast : Bool) (act : List α → σ → Option σ) (n : Nat) (P : σ → Prop)
    (hact : fast = false → ∀ (x : α) (st st2 : σ), P st →
      act (List.replicate n x) st = some st2 → P st2) :
    ∀ (fuel : Nat) (c : List α) (st s : σ), P st →
      mergeLoopFuel key val fast act fuel (List.replicate n c) st = some s →
      P s := by
  intro fuel
  induction fuel with
  | zero =>
    intro c st s _ hrun
    simp [mergeLoopFuel] at hrun
  | succ fuel ih =>
    intro c st s hP hrun
    rw [mergeLoopFuel] at hrun
    split at hrun
    · cases hrun
      exact hP
    · rename_i heads heq
      split at hrun
      · exact ih c st s hP hrun
      · rename_i h0 hs'
        have hf := (mapM_head?_some_iff (List.replicate n c) (h0 :: hs')).mp heq
        have hlen : n = (h0 :: hs').length := by
          have := List.Forall₂.length_eq hf
          simpa using this
        have hall : ∀ x ∈ h0 :: hs', x = h0 := by
          have hcx : ∀ x ∈ h0 :: hs', List.head? c = some x := by
            intro x hx
            obtain ⟨cc, hcc, hch⟩ := forall₂_exists_left _ _ _ hf x hx
            rw [List.eq_of_mem_replicate hcc] at hch
            exact hch
          intro x hx
          have h1 := hcx x hx
          have h2 := hcx h0 (List.mem_cons_self h0 hs')
          rw [h1] at h2
          exact Option.some.inj h2
        have hrep : h0 :: hs' = List.replicate n h0 :=
          List.eq_replicate_iff.mpr ⟨hlen.symm, hall⟩
        split at hrun
        · rw [List.map_replicate] at hrun
          exact ih c.tail st s hP hrun
        · rename_i hc1
          split at hrun
          · rename_i hc2
            cases hfast : fast with
            | true =>
              exfalso
              apply hc1
              rw [hfast]
              simp only [Bool.true_and]
              apply List.all_eq_true.mpr
              intro x hx
              rw [hall x hx]
              simp
            | false =>
              split at hrun
              · exact absurd hrun (by simp)
              · rename_i st2 hactv
                rw [hrep] at hactv
                have hP2 := hact hfast h0 st st2 hP hactv
                rw [List.map_replicate] at hrun
                exact ih c.tail st2 s hP2 hrun
          · rename_i hc2
            exfalso
            apply hc2
            apply List.all_eq_true.mpr
            intro x hx
            rw [hall x hx]
            simp

theorem zip_replicate_zero_map (scores : List ℚ) (den : Nat) :
    ∀ (n : Nat), scores.length ≤ n →
      (scores.zip (List.replicate n (0 : Nat))).map
        (fun p => (p.1 + (p.2 : ℚ) / (den : ℚ))) = scores := by
  induction scores with
  | nil =>
    intro n _
    rfl
  | cons a rest ih =>
    intro n hn
    cases n with
    | zero => simp at hn
    | succ n =>
      rw [List.replicate_succ, List.zip_cons_cons, List.map_cons,
        ih n (by simp at hn; omega)]
      norm_num

/-- With at least two browsers holding the same `TestResult`, `scoreTest`
leaves the accumulator unchanged: in the no-subtest branch the failure list
is all-or-nothing, never a singleton, and in the subtest branch every aligned
group is `n` identical subtests, so no count is ever recorded and every
increment is `0 / denominator`. -/
theorem scoreTest_replicate (n : Nat) (hn : 2 ≤ n) (v : TestResult)
    (scores : List ℚ) (hlen : scores.length ≤ n) :
    scoreTest (List.replicate n v) scores = scores := by
  by_cases hv : (subtestsOf v).isEmpty = true
  · rw [scoreTest]
    rw [if_pos (List.all_eq_true.mpr fun t ht => by
      rw [List.eq_of_mem_replicate ht]
      exact hv)]
    show (match failedIndices (fun t => !(t.status == "PASS"))
        (List.replicate n v) with
      | [i] => addAt scores i 1
      | _ => scores) = scores
    have hflen : (failedIndices (fun t => !(t.status == "PASS"))
        (List.replicate n v)).length =
        if (!(v.status == "PASS")) then n else 0 := by
      rw [failedIndices_length, List.countP_replicate]
    cases hfl : failedIndices (fun t => !(t.status == "PASS"))
        (List.replicate n v) with
    | nil => rfl
    | cons i tl =>
      cases tl with
      | nil =>
        exfalso
        rw [hfl] at hflen
        by_cases hb : (!(v.status == "PASS")) = true
        · rw [if_pos hb] at hflen
          simp at hflen
          omega
        · rw [if_neg hb] at hflen
          simp at hflen
      | cons j tl2 => rfl
  · rw [scoreTest]
    rw [if_neg (by
      intro hall
      exact hv (List.all_eq_true.mp hall v
        (List.mem_replicate.mpr ⟨by omega, rfl⟩)))]
    rw [if_pos (List.all_eq_true.mpr fun t ht => by
      rw [List.eq_of_mem_replicate ht]
      rw [Bool.eq_false_iff.mpr hv]
      rfl)]
    show (match mergeLoopFuel (fun s => nameKey s.name) id false subtestAct
        ((((List.replicate n v).map
          (fun t => List.insertionSort subtestLe (subtestsOf t))).map
            List.length).sum + 1)
        ((List.replicate n v).map
          (fun t => List.insertionSort subtestLe (subtestsOf t)))
        (0, List.replicate (List.replicate n v).length 0) with
      | some (denominator, counts) =>
        if 0 < denominator then
          (scores.zip counts).map (fun p => p.1 + (p.2 : ℚ) / (denominator : ℚ))
        else scores
      | none => scores) = scores
    rw [List.map_replicate, List.map_replicate, List.length_replicate]
    have hact : (false : Bool) = false → ∀ (x : SubtestResult)
        (st st2 : Nat × List Nat), st.2 = List.replicate n 0 →
        subtestAct (List.replicate n x) st = some st2 →
        st2.2 = List.replicate n 0 := by
      intro _ x st st2 hst hrun2
      rw [subtestAct] at hrun2
      have hflen2 : (failedIndices (fun s => s.status == "FAIL")
          (List.replicate n x)).length =
          if (x.status == "FAIL") then n else 0 := by
        rw [failedIndices_length, List.countP_replicate]
      cases hfl2 : failedIndices (fun s => s.status == "FAIL")
          (List.replicate n x) with
      | nil =>
        rw [hfl2] at hrun2
        cases hrun2
        exact hst
      | cons i tl =>
        cases tl with
        | nil =>
          exfalso
          rw [hfl2] at hflen2
          by_cases hb : (x.status == "FAIL") = true
          · rw [if_pos hb] at hflen2
            simp at hflen2
            omega
          · rw [if_neg hb] at hflen2
            simp at hflen2
        | cons j tl2 =>
          rw [hfl2] at hrun2
          cases hrun2
          exact hst
    cases hres : mergeLoopFuel (fun s => nameKey s.name) id false subtestAct
        ((List.replicate n (List.insertionSort subtestLe (subtestsOf v)).length).sum + 1)
        (List.replicate n (List.insertionSort subtestLe (subtestsOf v)))
        (0, List.replicate n 0) with
    | none => rfl
    | some st =>
      obtain ⟨d, counts⟩ := st
      have hP := mergeLoopFuel_replicate (fun s => nameKey s.name) id false
        subtestAct n (fun st => st.2 = List.replicate n 0) hact
        ((List.replicate n (List.insertionSort subtestLe (subtestsOf v)).length).sum + 1)
        (List.insertionSort subtestLe (subtestsOf v))
        (0, List.replicate n 0) (d, counts) rfl hres
      show (if 0 < d then
          (scores.zip counts).map (fun p => p.1 + (p.2 : ℚ) / (d : ℚ))
        else scores) = scores
      have hcounts : counts = List.replicate n 0 := hP
      rw [hcounts]
      by_cases hd : 0 < d
      · rw [if_pos hd]
        exact zip_replicate_zero_map scores d n hlen
      · rw [if_neg hd]

/-- The whole walk over `n` identical browser trees leaves the scores
unchanged.  With the fast path on (`fast = true`, the source code) this needs
no side condition; with the fast path off it needs `2 ≤ n` so that no aligned
group is a singleton. -/
theorem walkTreesGenFuel_replicate (fast : Bool) (n : Nat)
    (hfastn : fast = false → 2 ≤ n) :
    ∀ (fuel : Nat) (t : ResultTree) (scores s : List ℚ),
      scores.length ≤ n →
      walkTreesGenFuel fast fuel (List.replicate n t) scores = some s →
      s = scores := by
  intro fuel
  induction fuel with
  | zero =>
    intro t scores s _ h
    simp [walkTreesGenFuel] at h
  | succ fuel ih =>
    intro t scores s hlen hrun
    rw [walkTreesGenFuel] at hrun
    rw [List.map_replicate, List.map_replicate] at hrun
    split at hrun
    · exact absurd hrun (by simp)
    · rename_i s1 heq1
      have hs1 : s1 = scores :=
        mergeLoopFuel_replicate (fun p => nameKey p.1) Prod.snd fast
          (fun g st => some (scoreTest (g.map Prod.snd) st)) n
          (fun st => st = scores)
          (by
            intro hf x st st2 hst hacteq
            replace hacteq : some (scoreTest ((List.replicate n x).map Prod.snd) st) =
              some st2 := hacteq
            rw [List.map_replicate] at hacteq
            have hx := Option.some.inj hacteq
            rw [← hx, scoreTest_replicate n (hfastn hf) x.2 st
              (by rw [hst]; exact hlen)]
            exact hst)
          fuel (sortedTests t) scores s1 rfl heq1
      rw [hs1] at hrun
      exact mergeLoopFuel_replicate (fun p => nameKey p.1) Prod.snd fast
        (fun g st => walkTreesGenFuel fast fuel (g.map Prod.snd) st) n
        (fun st => st = scores)
        (by
          intro hf x st st2 hst hacteq
          replace hacteq : walkTreesGenFuel fast fuel
              ((List.replicate n x).map Prod.snd) st = some st2 := hacteq
          rw [List.map_replicate] at hacteq
          have h3 := ih x.2 st st2 (by rw [hst]; exact hlen) hacteq
          rw [h3, hst])
        fuel (sortedTrees t) scores s rfl hrun

/-- **C5 counterexample**: for `N = 1` the returned score map is *not*
identical whether or not the fast path fires.  On a single run whose lone
test fails, the source (fast path on) compares the single tree with itself,
skips everything and returns 0, while the same walk with the fast path
removed scores the lone failing test as browser-specific (exactly one of the
one browsers fails it) and returns 1.  The fast path is therefore not purely
an optimization: it changes the result for `N = 1`. -/
theorem claim_C5_counterexample :
    scoreBrowserSpecificFailures 10
        [Run.mk "chrome" (ResultTree.mk [("TestA", TestResult.mk "FAIL" none)] [])]
        ["chrome"] =
      Except.ok (some [("chrome", 0)]) ∧
    scoreBrowserSpecificFailuresNoFast 10
        [Run.mk "chrome" (ResultTree.mk [("TestA", TestResult.mk "FAIL" none)] [])]
        ["chrome"] =
      Except.ok (some [("chrome", 1)]) := by
  constructor
  · rfl
  · rw [show scoreBrowserSpecificFailuresNoFast 10
        [Run.mk "chrome" (ResultTree.mk [("TestA", TestResult.mk "FAIL" none)] [])]
        ["chrome"] = Except.ok (some [("chrome", (0 : ℚ) + 1)]) from rfl]
    norm_num

/-- **C5** (amended): for every `N ≥ 1` and every validated run set whose `N`
trees are deeply identical in content, `scoreBrowserSpecificFailures`
(which uses the fast path) returns 0 for every browser; and for `N ≥ 2` the
same result is returned with the fast path removed, so for two or more
browsers the fast path is purely an optimization.  (For `N = 1` the two
variants differ; see the counterexample.) -/
theorem claim_C5 (runs : List Run) (expected : List String) (t : ResultTree)
    (fuel : Nat) (hne : runs ≠ [])
    (hval : validateRuns runs expected = Except.ok ())
    (htrees : runs.map Run.tree = List.replicate runs.length t)
    (hfuel : walkBound (runs.map Run.tree) ≤ fuel) :
    scoreBrowserSpecificFailures fuel runs expected =
      Except.ok (some ((runs.map Run.browser_name).zip
        (List.replicate runs.length 0))) ∧
    (2 ≤ runs.length →
      scoreBrowserSpecificFailuresNoFast fuel runs expected =
        scoreBrowserSpecificFailures fuel runs expected) := by
  have hlen0 : (List.replicate runs.length (0 : ℚ)).length ≤ runs.length := by
    simp
  have hwne : runs.map Run.tree ≠ [] := by
    intro hmap
    rw [List.map_eq_nil_iff] at hmap
    exact hne hmap
  have hsomeT := walkTreesGenFuel_isSome true fuel (runs.map Run.tree)
    (List.replicate runs.length 0) hwne hfuel
  obtain ⟨sT, hsT⟩ := Option.isSome_iff_exists.mp hsomeT
  have hsT' := hsT
  rw [htrees] at hsT'
  have hTz : sT = List.replicate runs.length 0 :=
    walkTreesGenFuel_replicate true runs.length (by simp) fuel t
      (List.replicate runs.length 0) sT hlen0 hsT'
  constructor
  · unfold scoreBrowserSpecificFailures
    rw [hval, hsT, hTz]
  · intro h2
    have hsomeF := walkTreesGenFuel_isSome false fuel (runs.map Run.tree)
      (List.replicate runs.length 0) hwne hfuel
    obtain ⟨sF, hsF⟩ := Option.isSome_iff_exists.mp hsomeF
    have hsF' := hsF
    rw [htrees] at hsF'
    have hFz : sF = List.replicate runs.length 0 :=
      walkTreesGenFuel_replicate false runs.length (fun _ => h2) fuel t
        (List.replicate runs.length 0) sF hlen0 hsF'
    unfold scoreBrowserSpecificFailuresNoFast scoreBrowserSpecificFailures
    rw [hval, hsT, hsF, hFz, hTz]

/-- Witness for C5: two browsers with identical single-failing-test trees
both score 0, with and without the fast path. -/
theorem claim_C5_witness :
    scoreBrowserSpecificFailures 5
        [Run.mk "chrome" (ResultTree.mk [("a", TestResult.mk "FAIL" none)] []),
         Run.mk "firefox" (ResultTree.mk [("a", TestResult.mk "FAIL" none)] [])]
        ["chrome", "firefox"] =
      Except.ok (some [("chrome", 0), ("firefox", 0)]) ∧
    scoreBrowserSpecificFailuresNoFast 5
        [Run.mk "chrome" (ResultTree.mk [("a", TestResult.mk "FAIL" none)] []),
         Run.mk "firefox" (ResultTree.mk [("a", TestResult.mk "FAIL" none)] [])]
        ["chrome", "firefox"] =
      scoreBrowserSpecificFailures 5
        [Run.mk "chrome" (ResultTree.mk [("a", TestResult.mk "FAIL" none)] []),
         Run.mk "firefox" (ResultTree.mk [("a", TestResult.mk "FAIL" none)] [])]
        ["chrome", "firefox"] := by
  have h := claim_C5
    [Run.mk "chrome" (ResultTree.mk [("a", TestResult.mk "FAIL" none)] []),
     Run.mk "firefox" (ResultTree.mk [("a", TestResult.mk "FAIL" none)] [])]
    ["chrome", "firefox"] (ResultTree.mk [("a", TestResult.mk "FAIL" none)] []) 5
    (by simp) (by rfl) (by rfl) (by decide)
  exact ⟨h.1, h.2 (by simp)⟩

/-! ### The subtest branch of `scoreTest`: aligned names, counts, denominator -/

theorem subtestAct_isSome (g : List SubtestResult) (st : Nat × List Nat) :
    (subtestAct g st).isSome = true := by
  rw [subtestAct]
  split <;> rfl

theorem pairwise_key_lt (key : α → List Char) :
    ∀ (l : List α), List.Pairwise (fun a b => key a ≤ key b) l →
      (l.map key).Nodup →
      List.Pairwise (fun a b => key a < key b) l := by
  intro l
  induction l with
  | nil =>
    intro _ _
    exact List.Pairwise.nil
  | cons a t ihl =>
    intro hp hnd
    rw [List.pairwise_cons] at hp ⊢
    rw [List.map_cons, List.nodup_cons] at hnd
    refine ⟨?_, ihl hp.2 hnd.2⟩
    intro b hb
    exact lt_of_le_of_ne (hp.1 b hb)
      (fun he => hnd.1 (he ▸ List.mem_map_of_mem key hb))

theorem mem_enumFrom_filter_fst (p : Nat × α → Bool) :
    ∀ (l : List α) (k0 i : Nat),
      i ∈ ((List.enumFrom k0 l).filter p).map Prod.fst → i < k0 + l.length := by
  intro l
  induction l with
  | nil =>
    intro k0 i h
    simp at h
  | cons a rest ih =>
    intro k0 i h
    replace h : i ∈ (List.filter p ((k0, a) :: List.enumFrom (k0 + 1) rest)).map
      Prod.fst := h
    rw [List.filter_cons] at h
    by_cases hp : p (k0, a) = true
    · rw [if_pos hp, List.map_cons] at h
      rcases List.mem_cons.mp h with h | h
      · rw [h]
        simp only [List.length_cons]
        omega
      · have := ih (k0 + 1) i h
        simp only [List.length_cons]
        omega
    · rw [if_neg hp] at h
      have := ih (k0 + 1) i h
      simp only [List.length_cons]
      omega

theorem mem_failedIndices_lt (p : α → Bool) (l : List α) (i : Nat)
    (h : i ∈ failedIndices p l) : i < l.length := by
  rw [failedIndices] at h
  have := mem_enumFrom_filter_fst (fun x => p x.2) l 0 i h
  omega

theorem find?_eq_some_unique (p : α → Bool) :
    ∀ (l : List α) (x : α), x ∈ l → p x = true →
      (∀ y ∈ l, p y = true → y = x) → l.find? p = some x := by
  intro l
  induction l with
  | nil =>
    intro x hx
    simp at hx
  | cons a t ih =>
    intro x hx hpx huniq
    by_cases hpa : p a = true
    · rw [List.find?_cons_of_pos t hpa]
      rw [huniq a (List.mem_cons_self a t) hpa]
    · rw [List.find?_cons_of_neg t (by simpa using hpa)]
      have hxt : x ∈ t := by
        rcases List.mem_cons.mp hx with h | h
        · exact absurd (h ▸ hpx) hpa
        · exact h
      exact ih x hxt hpx (fun y hy hpy => huniq y (List.mem_cons_of_mem a hy) hpy)

/-- `find?` by key is invariant under permutation when the keys are distinct:
sorting a browser's subtest sequence does not change which subtest the
merge-join selects for a name. -/
theorem find?_perm_nodup (key : α → List Char) (k : List Char) :
    ∀ (l l' : List α), l.Perm l' → ((l.map key).Nodup) →
      l.find? (fun x => decide (key x = k)) =
      l'.find? (fun x => decide (key x = k)) := by
  intro l l' hperm hnd
  cases hfind : l'.find? (fun x => decide (key x = k)) with
  | none =>
    rw [List.find?_eq_none] at hfind ⊢
    intro x hx
    exact hfind x (hperm.mem_iff.mp hx)
  | some x =>
    have hpx := List.find?_some hfind
    have hxl : x ∈ l := hperm.mem_iff.mpr (List.mem_of_find?_eq_some hfind)
    apply find?_eq_some_unique _ l x hxl hpx
    intro y hy hpy
    apply List.inj_on_of_nodup_map hnd hy hxl
    have h1 : key y = k := by simpa using hpy
    have h2 : key x = k := by simpa using hpx
    rw [h1, h2]

theorem filterMap_forall₂_of_isSome (f : α → Option γ) :
    ∀ (l : List α), (∀ x ∈ l, (f x).isSome = true) →
      List.Forall₂ (fun a b => f a = some b) l (l.filterMap f) := by
  intro l
  induction l with
  | nil =>
    intro _
    rw [List.filterMap_nil]
    exact List.Forall₂.nil
  | cons a t ih =>
    intro hall
    obtain ⟨b, hb⟩ := Option.isSome_iff_exists.mp (hall a (List.mem_cons_self a t))
    rw [List.filterMap_cons, hb]
    exact List.Forall₂.cons hb (ih fun x hx => hall x (List.mem_cons_of_mem a hx))

theorem enumFrom_filter_fst_forall₂ (q : α → Bool) (p : γ → Bool) :
    ∀ (l : List α) (g : List γ), List.Forall₂ (fun a b => q a = p b) l g →
      ∀ (k0 : Nat),
        ((List.enumFrom k0 g).filter (fun x => p x.2)).map Prod.fst =
        ((List.enumFrom k0 l).filter (fun x => q x.2)).map Prod.fst := by
  intro l g hf
  induction hf with
  | nil =>
    intro k0
    rfl
  | cons hab hrest ih =>
    rename_i a b l' g'
    intro k0
    show ((List.filter (fun x => p x.2) ((k0, b) :: List.enumFrom (k0 + 1) g')).map
        Prod.fst) =
      ((List.filter (fun x => q x.2) ((k0, a) :: List.enumFrom (k0 + 1) l')).map
        Prod.fst)
    simp only [List.filter_cons]
    by_cases hpb : p b = true
    · rw [if_pos hpb, if_pos (hab.trans hpb)]
      rw [List.map_cons, List.map_cons, ih (k0 + 1)]
    · rw [if_neg hpb, if_neg (by rw [hab]; exact hpb)]
      exact ih (k0 + 1)

/-- Two elementwise-matching rows have the same failing indices. -/
theorem failedIndices_forall₂ (q : α → Bool) (p : γ → Bool) (l : List α)
    (g : List γ) (hf : List.Forall₂ (fun a b => q a = p b) l g) :
    failedIndices p g = failedIndices q l := by
  rw [failedIndices, failedIndices]
  exact enumFrom_filter_fst_forall₂ q p l g hf 0

theorem getD_replicate_zero : ∀ (n j : Nat), (List.replicate n (0 : Nat)).getD j 0 = 0 := by
  intro n
  induction n with
  | zero =>
    intro j
    cases j <;> rfl
  | succ n ih =>
    intro j
    cases j with
    | zero => rfl
    | succ j' => exact ih j'

theorem zip_map_div_getD (dd : Nat) :
    ∀ (scores : List ℚ) (counts : List Nat) (j : Nat), j < scores.length →
      scores.length = counts.length →
      ((scores.zip counts).map (fun p => p.1 + (p.2 : ℚ) / (dd : ℚ))).getD j 0 =
        scores.getD j 0 + (counts.getD j 0 : ℚ) / (dd : ℚ) := by
  intro scores
  induction scores with
  | nil =>
    intro counts j hj _
    simp at hj
  | cons a rest ih =>
    intro counts j hj hlen
    cases counts with
    | nil => simp at hlen
    | cons c crest =>
      rw [List.zip_cons_cons, List.map_cons]
      cases j with
      | zero => rfl
      | succ j' =>
        rw [List.getD_cons_succ, List.getD_cons_succ, List.getD_cons_succ]
        exact ih crest j' (by simpa using hj) (by simpa using hlen)

/-- Replaying the subtest bodies over a key list: every key increments the
shared denominator by one, and a browser's count increments exactly at the
keys where it is the single failing browser of the key's group. -/
theorem foldKeys_subtestAct (key : SubtestResult → List Char)
    (cursors : List (List SubtestResult)) :
    ∀ (ks : List (List Char)) (d0 : Nat) (c0 : List Nat) (st : Nat × List Nat),
      (∀ k ∈ ks, ∀ i : Nat,
        failedIndices (fun s => s.status == "FAIL") (groupAt key cursors k) = [i] →
        i < c0.length) →
      foldKeys key id false subtestAct cursors ks (d0, c0) = some st →
      st.1 = d0 + ks.length ∧ st.2.length = c0.length ∧
      ∀ j < c0.length, st.2.getD j 0 = c0.getD j 0 +
        (ks.filter (fun k => decide (failedIndices (fun s => s.status == "FAIL")
          (groupAt key cursors k) = [j]))).length := by
  intro ks
  induction ks with
  | nil =>
    intro d0 c0 st _ hrun
    replace hrun : some (d0, c0) = some st := hrun
    cases hrun
    refine ⟨by simp, rfl, ?_⟩
    intro j _
    simp
  | cons k ks ih =>
    intro d0 c0 st hgrp hrun
    rw [foldKeys] at hrun
    rw [if_neg (by simp)] at hrun
    rw [subtestAct] at hrun
    cases hfi : failedIndices (fun s => s.status == "FAIL") (groupAt key cursors k) with
    | nil =>
      rw [hfi] at hrun
      replace hrun : foldKeys key id false subtestAct cursors ks (d0 + 1, c0) =
        some st := hrun
      obtain ⟨h1, h2, h3⟩ := ih (d0 + 1) c0 st
        (fun k2 hk2 => hgrp k2 (List.mem_cons_of_mem k hk2)) hrun
      refine ⟨by rw [h1]; simp; omega, h2, ?_⟩
      intro j hj
      rw [h3 j hj, List.filter_cons]
      rw [if_neg (by simp [hfi])]
    | cons i tl =>
      cases tl with
      | nil =>
        rw [hfi] at hrun
        replace hrun : foldKeys key id false subtestAct cursors ks
          (d0 + 1, bumpAt c0 i) = some st := hrun
        have hilt : i < c0.length := hgrp k (List.mem_cons_self k ks) i hfi
        obtain ⟨h1, h2, h3⟩ := ih (d0 + 1) (bumpAt c0 i) st
          (fun k2 hk2 i2 hi2 => by
            rw [bumpAt_length]
            exact hgrp k2 (List.mem_cons_of_mem k hk2) i2 hi2) hrun
        rw [bumpAt_length] at h2
        refine ⟨by rw [h1]; simp; omega, h2, ?_⟩
        intro j hj
        have h4 := h3 j (by rw [bumpAt_length]; exact hj)
        rw [bumpAt_getD c0 i j hj] at h4
        rw [h4]
        simp only [List.filter_cons]
        by_cases hji : j = i
        · have hcondpos : decide (failedIndices (fun s => s.status == "FAIL")
              (groupAt key cursors k) = [j]) = true := by
            rw [hfi]
            simp [hji]
          rw [if_pos hcondpos, if_pos hji]
          simp only [List.length_cons]
          omega
        · have hcondneg : ¬ decide (failedIndices (fun s => s.status == "FAIL")
              (groupAt key cursors k) = [j]) = true := by
            rw [hfi]
            simp
            exact fun h => hji h.symm
          rw [if_neg hcondneg, if_neg hji]
          omega
      | cons i2 tl2 =>
        rw [hfi] at hrun
        replace hrun : foldKeys key id false subtestAct cursors ks (d0 + 1, c0) =
          some st := hrun
        obtain ⟨h1, h2, h3⟩ := ih (d0 + 1) c0 st
          (fun k2 hk2 => hgrp k2 (List.mem_cons_of_mem k hk2)) hrun
        refine ⟨by rw [h1]; simp; omega, h2, ?_⟩
        intro j hj
        rw [h3 j hj, List.filter_cons]
        rw [if_neg (by simp [hfi])]

/-- The aligned keys of the sorted merge-join are a permutation of the
aligned subtest names read off the raw subtest sequences. -/
theorem alignedKeys_map_sorted_perm (browserTests : List TestResult) :
    (alignedKeys (fun s => nameKey s.name)
      (browserTests.map (fun t => List.insertionSort subtestLe (subtestsOf t)))).Perm
    (alignedNameKeys browserTests) := by
  cases browserTests with
  | nil => exact List.Perm.refl []
  | cons t0 rest =>
    show (((List.insertionSort subtestLe (subtestsOf t0)).map
        (fun s => nameKey s.name)).filter
        (fun k => decide (∀ c2 ∈ rest.map
          (fun t => List.insertionSort subtestLe (subtestsOf t)),
          k ∈ c2.map (fun s => nameKey s.name)))).Perm
      (((subtestsOf t0).map (fun s => nameKey s.name)).filter
        (fun k => decide (∀ t ∈ rest,
          k ∈ (subtestsOf t).map (fun s => nameKey s.name))))
    have hpred : ∀ (k : List Char),
        (decide (∀ c2 ∈ rest.map (fun t => List.insertionSort subtestLe (subtestsOf t)),
          k ∈ c2.map (fun s => nameKey s.name)) : Bool) =
        decide (∀ t ∈ rest, k ∈ (subtestsOf t).map (fun s => nameKey s.name)) := by
      intro k
      rw [decide_eq_decide]
      constructor
      · intro h t ht
        have h2 := h (List.insertionSort subtestLe (subtestsOf t))
          (List.mem_map_of_mem _ ht)
        exact ((List.perm_insertionSort subtestLe (subtestsOf t)).map _).mem_iff.mp h2
      · intro h c2 hc2
        obtain ⟨t, ht, rfl⟩ := List.mem_map.mp hc2
        exact ((List.perm_insertionSort subtestLe (subtestsOf t)).map _).mem_iff.mpr
          (h t ht)
    rw [List.filter_congr (fun k _ => hpred k)]
    exact List.Perm.filter _ ((List.perm_insertionSort subtestLe (subtestsOf t0)).map _)

/-- An aligned name has a subtest in every browser. -/
theorem mem_alignedNameKeys_isSome (browserTests : List TestResult) (k : List Char)
    (hk : k ∈ alignedNameKeys browserTests) :
    ∀ t ∈ browserTests, (subtestNamed t k).isSome = true := by
  cases browserTests with
  | nil =>
    intro t ht
    simp at ht
  | cons t0 rest =>
    replace hk : k ∈ ((subtestsOf t0).map (fun s => nameKey s.name)).filter
      (fun k => decide (∀ t ∈ rest,
        k ∈ (subtestsOf t).map (fun s => nameKey s.name))) := hk
    rw [List.mem_filter] at hk
    obtain ⟨hk0, hkrest⟩ := hk
    have hrest : ∀ t ∈ rest, k ∈ (subtestsOf t).map (fun s => nameKey s.name) := by
      simpa using hkrest
    intro t ht
    have hmem : k ∈ (subtestsOf t).map (fun s => nameKey s.name) := by
      rcases List.mem_cons.mp ht with h | h
      · rw [h]
        exact hk0
      · exact hrest t h
    obtain ⟨s, hs, hsk⟩ := List.mem_map.mp hmem
    rw [subtestNamed]
    simp only [List.find?_isSome]
    exact ⟨s, hs, by simpa using hsk⟩

/-- At an aligned name, the merge-join's group over the sorted cursors fails
exactly the browsers whose raw entry for that name is a literal `FAIL`. -/
theorem groupAt_failedIndices (browserTests : List TestResult)
    (hnodup : ∀ t ∈ browserTests,
      ((subtestsOf t).map (fun s => nameKey s.name)).Nodup)
    (k : List Char)
    (hk : ∀ t ∈ browserTests, (subtestNamed t k).isSome = true) :
    failedIndices (fun s => s.status == "FAIL")
      (groupAt (fun s => nameKey s.name)
        (browserTests.map (fun t => List.insertionSort subtestLe (subtestsOf t))) k) =
    failedIndices (fun t => failsAt t k) browserTests := by
  rw [groupAt, List.filterMap_map]
  have hcomp : ∀ t ∈ browserTests,
      ((fun (c : List SubtestResult) =>
        c.find? (fun x => decide ((fun s => nameKey s.name) x = k))) ∘
        (fun t => List.insertionSort subtestLe (subtestsOf t))) t =
      subtestNamed t k := by
    intro t ht
    show (List.insertionSort subtestLe (subtestsOf t)).find?
        (fun x => decide (nameKey x.name = k)) = subtestNamed t k
    exact find?_perm_nodup (fun s => nameKey s.name) k _ _
      (List.perm_insertionSort subtestLe (subtestsOf t))
      (((List.perm_insertionSort subtestLe (subtestsOf t)).map _).nodup_iff.mpr
        (hnodup t ht))
  rw [List.filterMap_congr hcomp]
  have hf2 := filterMap_forall₂_of_isSome (fun t => subtestNamed t k) browserTests hk
  exact failedIndices_forall₂ (fun t => failsAt t k) (fun s => s.status == "FAIL")
    browserTests (List.filterMap (fun x => subtestNamed x k) browserTests)
    (List.Forall₂.imp (fun t s hts => by
      replace hts : subtestNamed t k = some s := hts
      show (match subtestNamed t k with
        | some s => s.status == "FAIL"
        | none => false) = (s.status == "FAIL")
      rw [hts]) hf2)

/-- **C2.** For an aligned test where every browser reports a nonempty
subtest sequence (with per-browser distinct subtest names): only subtests
aligned by name across all `N` browsers are considered; each aligned name
increments the shared denominator once; failing means the literal status
`FAIL`; a count is recorded only when exactly one browser fails; and when
the denominator is positive each browser's accumulator entry increases by
`counts[i] / denominator`, a single division of the raw count. -/
theorem claim_C2 (browserTests : List TestResult) (scores : List ℚ)
    (hne : browserTests ≠ [])
    (hsub : ∀ t ∈ browserTests, subtestsOf t ≠ [])
    (hnodup : ∀ t ∈ browserTests,
      ((subtestsOf t).map (fun s => nameKey s.name)).Nodup)
    (hlen : scores.length = browserTests.length) :
    (scoreTest browserTests scores).length = scores.length ∧
    ∀ j < scores.length,
      (scoreTest browserTests scores).getD j 0 =
        scores.getD j 0 +
          (if 0 < (alignedNameKeys browserTests).length then
            (bsfCount browserTests j : ℚ) /
              ((alignedNameKeys browserTests).length : ℚ)
          else 0) := by
  have hcne : browserTests.map
      (fun t => List.insertionSort subtestLe (subtestsOf t)) ≠ [] := by
    intro h
    rw [List.map_eq_nil_iff] at h
    exact hne h
  obtain ⟨st0, hres⟩ := Option.isSome_iff_exists.mp
    (mergeLoopFuel_isSome (fun s => nameKey s.name) id false subtestAct
      (((browserTests.map (fun t => List.insertionSort subtestLe (subtestsOf t))).map
        List.length).sum + 1)
      (browserTests.map (fun t => List.insertionSort subtestLe (subtestsOf t)))
      (0, List.replicate browserTests.length 0) hcne (le_refl _)
      (fun g st2 _ => subtestAct_isSome g st2))
  obtain ⟨d, counts⟩ := st0
  have hmain : scoreTest browserTests scores =
      if 0 < d then (scores.zip counts).map
        (fun p => p.1 + (p.2 : ℚ) / (d : ℚ)) else scores := by
    rw [scoreTest]
    rw [if_neg (by
      intro hall
      obtain ⟨t0, ht0⟩ := List.exists_mem_of_ne_nil browserTests hne
      exact hsub t0 ht0 (List.isEmpty_iff.mp (List.all_eq_true.mp hall t0 ht0)))]
    rw [if_pos (List.all_eq_true.mpr fun t ht => by
      rw [Bool.eq_false_iff.mpr (fun he => hsub t ht (List.isEmpty_iff.mp he))]
      rfl)]
    show (match mergeLoopFuel (fun s => nameKey s.name) id false subtestAct
        (((browserTests.map (fun t => List.insertionSort subtestLe (subtestsOf t))).map
          List.length).sum + 1)
        (browserTests.map (fun t => List.insertionSort subtestLe (subtestsOf t)))
        (0, List.replicate browserTests.length 0) with
      | some (denominator, counts) =>
        if 0 < denominator then
          (scores.zip counts).map
            (fun (p : ℚ × Nat) => p.1 + (p.2 : ℚ) / (denominator : ℚ))
        else scores
      | none => scores) = _
    rw [hres]
  have hsorted : ∀ c ∈ browserTests.map
      (fun t => List.insertionSort subtestLe (subtestsOf t)),
      List.Pairwise (fun a b => (fun s => nameKey s.name) a <
        (fun s => nameKey s.name) b) c := by
    intro c hc
    obtain ⟨t, ht, rfl⟩ := List.mem_map.mp hc
    apply pairwise_key_lt
    · exact List.sorted_insertionSort subtestLe (subtestsOf t)
    · exact ((List.perm_insertionSort subtestLe (subtestsOf t)).map _).nodup_iff.mpr
        (hnodup t ht)
  have hchar := mergeLoopFuel_foldKeys (fun s => nameKey s.name) id false subtestAct
    (((browserTests.map (fun t => List.insertionSort subtestLe (subtestsOf t))).map
      List.length).sum + 1)
    (browserTests.map (fun t => List.insertionSort subtestLe (subtestsOf t)))
    (0, List.replicate browserTests.length 0) (d, counts) hcne hsorted
    (by intro h; exact absurd h (by simp)) hres
  have hN : (List.replicate browserTests.length (0 : Nat)).length =
      browserTests.length := List.length_replicate _ _
  have hgrp : ∀ k ∈ alignedKeys (fun s => nameKey s.name)
      (browserTests.map (fun t => List.insertionSort subtestLe (subtestsOf t))),
      ∀ i : Nat, failedIndices (fun s => s.status == "FAIL")
        (groupAt (fun s => nameKey s.name)
          (browserTests.map (fun t => List.insertionSort subtestLe (subtestsOf t)))
          k) = [i] →
      i < (List.replicate browserTests.length (0 : Nat)).length := by
    intro k _ i hfi
    have hmem : i ∈ failedIndices (fun s => s.status == "FAIL")
        (groupAt (fun s => nameKey s.name)
          (browserTests.map (fun t => List.insertionSort subtestLe (subtestsOf t)))
          k) := by
      rw [hfi]
      exact List.mem_singleton.mpr rfl
    have h1 := mem_failedIndices_lt _ _ _ hmem
    have h2 : (groupAt (fun s => nameKey s.name)
        (browserTests.map (fun t => List.insertionSort subtestLe (subtestsOf t)))
        k).length ≤ browserTests.length := by
      rw [groupAt]
      have h3 := List.length_filterMap_le
        (fun (c : List SubtestResult) =>
          c.find? (fun x => decide ((fun s => nameKey s.name) x = k)))
        (browserTests.map (fun t => List.insertionSort subtestLe (subtestsOf t)))
      rw [List.length_map] at h3
      exact h3
    rw [hN]
    omega
  obtain ⟨hd1, hc1, hc2⟩ := foldKeys_subtestAct (fun s => nameKey s.name)
    (browserTests.map (fun t => List.insertionSort subtestLe (subtestsOf t)))
    (alignedKeys (fun s => nameKey s.name)
      (browserTests.map (fun t => List.insertionSort subtestLe (subtestsOf t))))
    0 (List.replicate browserTests.length 0) (d, counts) hgrp hchar
  have hd : d = (alignedKeys (fun s => nameKey s.name)
      (browserTests.map (fun t => List.insertionSort subtestLe
        (subtestsOf t)))).length := by
    have h3 : d = 0 + (alignedKeys (fun s => nameKey s.name)
        (browserTests.map (fun t => List.insertionSort subtestLe
          (subtestsOf t)))).length := hd1
    omega
  have hcl : counts.length = browserTests.length := by
    have h3 : counts.length =
      (List.replicate browserTests.length (0 : Nat)).length := hc1
    rw [hN] at h3
    exact h3
  have halperm := alignedKeys_map_sorted_perm browserTests
  have hdD : d = (alignedNameKeys browserTests).length := by
    rw [hd]
    exact halperm.length_eq
  have hcountj : ∀ j, j < browserTests.length →
      counts.getD j 0 = bsfCount browserTests j := by
    intro j hj
    have h3 : counts.getD j 0 =
        (List.replicate browserTests.length (0 : Nat)).getD j 0 +
        ((alignedKeys (fun s => nameKey s.name)
          (browserTests.map (fun t => List.insertionSort subtestLe
            (subtestsOf t)))).filter
          (fun k => decide (failedIndices (fun s => s.status == "FAIL")
            (groupAt (fun s => nameKey s.name)
              (browserTests.map (fun t => List.insertionSort subtestLe
                (subtestsOf t))) k) = [j]))).length :=
      hc2 j (by rw [hN]; exact hj)
    rw [getD_replicate_zero] at h3
    have hfe : ∀ k ∈ alignedKeys (fun s => nameKey s.name)
        (browserTests.map (fun t => List.insertionSort subtestLe (subtestsOf t))),
        (decide (failedIndices (fun s => s.status == "FAIL")
          (groupAt (fun s => nameKey s.name)
            (browserTests.map (fun t => List.insertionSort subtestLe
              (subtestsOf t))) k) = [j]) : Bool) =
        decide (failedIndices (fun t => failsAt t k) browserTests = [j]) := by
      intro k hk
      have hks := mem_alignedNameKeys_isSome browserTests k (halperm.mem_iff.mp hk)
      rw [groupAt_failedIndices browserTests hnodup k hks]
    rw [List.filter_congr hfe] at h3
    have hp2 := List.Perm.filter
      (fun k => decide (failedIndices (fun t => failsAt t k) browserTests = [j]))
      halperm
    rw [h3, hp2.length_eq, bsfCount]
    omega
  constructor
  · rw [hmain]
    by_cases hd0 : 0 < d
    · rw [if_pos hd0, List.length_map, List.length_zip, hcl, hlen]
      exact Nat.min_self _
    · rw [if_neg hd0]
  · intro j hj
    rw [hmain]
    by_cases hd0 : 0 < d
    · rw [if_pos hd0]
      rw [zip_map_div_getD d scores counts j hj (by rw [hcl]; exact hlen)]
      rw [hcountj j (by rw [← hlen]; exact hj)]
      rw [hdD]
      have hD0 : 0 < (alignedNameKeys browserTests).length := by
        rw [← hdD]
        exact hd0
      rw [if_pos hD0]
    · rw [if_neg hd0]
      have hD0 : ¬ 0 < (alignedNameKeys browserTests).length := by
        rw [← hdD]
        exact hd0
      rw [if_neg hD0]
      simp

/-- Witness for C2 at a concrete two-browser test: subtests `a` (which only
the first browser fails) and `b` (which both pass) are aligned, so the
denominator is 2, the first browser's count is 1 and the second's is 0. -/
theorem claim_C2_witness :
    (scoreTest [TestResult.mk "OK" (some [SubtestResult.mk "a" "FAIL",
        SubtestResult.mk "b" "PASS"]),
      TestResult.mk "OK" (some [SubtestResult.mk "a" "PASS",
        SubtestResult.mk "b" "PASS"])] [0, 0]).length = ([0, 0] : List ℚ).length ∧
    ∀ j < ([0, 0] : List ℚ).length,
      (scoreTest [TestResult.mk "OK" (some [SubtestResult.mk "a" "FAIL",
          SubtestResult.mk "b" "PASS"]),
        TestResult.mk "OK" (some [SubtestResult.mk "a" "PASS",
          SubtestResult.mk "b" "PASS"])] [0, 0]).getD j 0 =
        ([0, 0] : List ℚ).getD j 0 +
          (if 0 < (alignedNameKeys [TestResult.mk "OK"
              (some [SubtestResult.mk "a" "FAIL", SubtestResult.mk "b" "PASS"]),
            TestResult.mk "OK" (some [SubtestResult.mk "a" "PASS",
              SubtestResult.mk "b" "PASS"])]).length then
            (bsfCount [TestResult.mk "OK" (some [SubtestResult.mk "a" "FAIL",
                SubtestResult.mk "b" "PASS"]),
              TestResult.mk "OK" (some [SubtestResult.mk "a" "PASS",
                SubtestResult.mk "b" "PASS"])] j : ℚ) /
              ((alignedNameKeys [TestResult.mk "OK"
                  (some [SubtestResult.mk "a" "FAIL", SubtestResult.mk "b" "PASS"]),
                TestResult.mk "OK" (some [SubtestResult.mk "a" "PASS",
                  SubtestResult.mk "b" "PASS"])]).length : ℚ)
          else 0) :=
  claim_C2 [TestResult.mk "OK" (some [SubtestResult.mk "a" "FAIL",
      SubtestResult.mk "b" "PASS"]),
    TestResult.mk "OK" (some [SubtestResult.mk "a" "PASS",
      SubtestResult.mk "b" "PASS"])] [0, 0]
    (by simp) (by decide) (by decide) (by rfl)

/-- **C4 counterexample**: removing a test from one browser's tree *can*
increase another test's contribution to a browser's score.  Test files are
deduplicated blobs compared by identity in the fast path: here browser 1 has
tests `a` (passing blob) and `b` (failing blob) and browser 2 has tests `b`
and `c` whose blobs are both identical to browser 1's `a` blob.  With `a`
present, the fast path sees identical current values (`a` vs `b`), skips
both cursors, and the walk returns 0 for both browsers; after removing `a`
from browser 1, the aligned test `b` is scored and browser 1's score rises
to 1.  Monotonicity fails. -/
theorem claim_C4_counterexample :
    walkTreesGenFuel true 10
      [ResultTree.mk [("a", TestResult.mk "PASS" none),
        ("b", TestResult.mk "FAIL" none)] [],
       ResultTree.mk [("b", TestResult.mk "PASS" none),
        ("c", TestResult.mk "PASS" none)] []]
      [0, 0] = some [0, 0] ∧
    walkTreesGenFuel true 10
      [ResultTree.mk [("b", TestResult.mk "FAIL" none)] [],
       ResultTree.mk [("b", TestResult.mk "PASS" none),
        ("c", TestResult.mk "PASS" none)] []]
      [0, 0] = some [0 + 1, 0] ∧
    ¬ ((0 : ℚ) + 1 ≤ 0) :=
  ⟨rfl, rfl, by norm_num⟩

theorem forall₂_exists_right (P : α → γ → Prop) :
    ∀ (l1 : List α) (l2 : List γ), List.Forall₂ P l1 l2 →
      ∀ a ∈ l1, ∃ b ∈ l2, P a b := by
  intro l1 l2 hf
  induction hf with
  | nil =>
    intro a ha
    simp at ha
  | cons hpair hrest ih =>
    rename_i a0 b0 l1' l2'
    intro a ha
    rcases List.mem_cons.mp ha with h | h
    · rw [h]
      exact ⟨b0, List.mem_cons_self b0 l2', hpair⟩
    · obtain ⟨b, hb, hPb⟩ := ih a h
      exact ⟨b, List.mem_cons_of_mem b0 hb, hPb⟩

theorem forall₂_mem_mapIdx :
    ∀ (cursors : List (List α)) (f : Nat → List α → List α),
      (∀ (i : Nat) (c : List α), ∀ x ∈ f i c, x ∈ c) →
      ∀ (g : List α),
        List.Forall₂ (fun (c : List α) (x : α) => x ∈ c) (cursors.mapIdx f) g →
        List.Forall₂ (fun (c : List α) (x : α) => x ∈ c) cursors g := by
  intro cursors
  induction cursors with
  | nil =>
    intro f _ g h
    rw [List.mapIdx_nil] at h
    exact h
  | cons c cs ih =>
    intro f hf g h
    rw [List.mapIdx_cons] at h
    cases h with
    | cons hx hrest =>
      exact List.Forall₂.cons (hf 0 c _ hx)
        (ih (fun i => f (i + 1)) (fun i => hf (i + 1)) _ hrest)

/-- The merge loop queries its body only at groups that draw exactly one
current entry from each cursor, all sharing a single key: two bodies that
agree on all such groups yield identical runs, whatever the fast path does.
In `walkTrees`/`scoreTest` terms: scores and the denominator can change only
at a name on which every browser's iterator is simultaneously positioned. -/
theorem mergeLoopFuel_act_congr (key : α → List Char) (val : α → β) [DecidableEq β]
    (fast : Bool) (act act' : List α → σ → Option σ) :
    ∀ (fuel : Nat) (cursors : List (List α)) (st : σ),
      (∀ g st2, List.Forall₂ (fun (c : List α) (x : α) => x ∈ c) cursors g →
        (∀ x ∈ g, ∀ y ∈ g, key x = key y) → act g st2 = act' g st2) →
      mergeLoopFuel key val fast act fuel cursors st =
      mergeLoopFuel key val fast act' fuel cursors st := by
  intro fuel
  induction fuel with
  | zero =>
    intro cursors st _
    rfl
  | succ fuel ih =>
    intro cursors st hact
    have htails : ∀ st2,
        mergeLoopFuel key val fast act fuel (cursors.map List.tail) st2 =
        mergeLoopFuel key val fast act' fuel (cursors.map List.tail) st2 := by
      intro st2
      apply ih
      intro g st3 hmem hkeys
      apply hact g st3 ?_ hkeys
      have h2 := List.forall₂_map_left_iff.mp hmem
      exact List.Forall₂.imp (fun c x hx => mem_of_mem_tail' c x hx) h2
    cases hheads : cursors.mapM List.head? with
    | none => simp only [mergeLoopFuel, hheads]
    | some heads =>
      cases heads with
      | nil =>
        simp only [mergeLoopFuel, hheads]
        exact ih cursors st hact
      | cons h0 hs' =>
        simp only [mergeLoopFuel, hheads]
        by_cases hfast1 :
            (fast && (h0 :: hs').all fun x => decide (val x = val h0)) = true
        · rw [if_pos hfast1, if_pos hfast1]
          exact htails st
        · rw [if_neg hfast1, if_neg hfast1]
          by_cases halign : ((h0 :: hs').all fun x => decide (key x = key h0)) = true
          · rw [if_pos halign, if_pos halign]
            have hf := (mapM_head?_some_iff cursors (h0 :: hs')).mp hheads
            have hheadmem : ∀ (c : List α) (h : α), List.head? c = some h → h ∈ c := by
              intro c h hch
              cases c with
              | nil => simp at hch
              | cons a t =>
                have ha : a = h := by simpa using hch
                rw [← ha]
                exact List.mem_cons_self a t
            have hupf : List.Forall₂ (fun (c : List α) (x : α) => x ∈ c) cursors
                (h0 :: hs') := List.Forall₂.imp (fun c h hch => hheadmem c h hch) hf
            have hkeys : ∀ x ∈ h0 :: hs', ∀ y ∈ h0 :: hs', key x = key y := by
              have hall := List.all_eq_true.mp halign
              intro x hx y hy
              have h1 : key x = key h0 := by simpa using hall x hx
              have h2 : key y = key h0 := by simpa using hall y hy
              rw [h1, h2]
            rw [hact (h0 :: hs') st hupf hkeys]
            cases act' (h0 :: hs') st with
            | none => rfl
            | some st2 => exact htails st2
          · rw [if_neg halign, if_neg halign]
            rw [List.tail_cons]
            apply ih
            intro g st3 hmem hkeys
            apply hact g st3 ?_ hkeys
            rw [dropHeadAt] at hmem
            exact forall₂_mem_mapIdx cursors
              (fun i c => if i = findMinIdx key hs' (key h0) 0 1 then c.tail else c)
              (fun i c x hx => by
                replace hx : x ∈ (if i = findMinIdx key hs' (key h0) 0 1 then
                  c.tail else c) := hx
                by_cases hij : i = findMinIdx key hs' (key h0) 0 1
                · rw [if_pos hij] at hx
                  exact mem_of_mem_tail' c x hx
                · rw [if_neg hij] at hx
                  exact hx) g hmem

/-- **C4** (amended): at every step of the merge-join where the identity
fast path does not fire and the current keys are not all equal, the loop
advances only the iterator holding the lexicographically smallest current
key.  The loop body — the only place any browser's score or the shared
denominator changes — is invoked solely on groups drawing exactly one
current entry from each browser's collection, all sharing a single name
(so two bodies agreeing on such groups give identical runs); and a name
absent from at least one browser's collection never forms such a group,
hence contributes to no browser's score and to no denominator.  The
monotonicity consequence is dropped: removing a test can change which
nodes the identity fast path skips and increase another browser's score
(see the counterexample). -/
theorem claim_C4 (key : α → List Char) (val : α → β) [DecidableEq β]
    (fast : Bool) (act : List α → σ → Option σ)
    (fuel : Nat) (cursors : List (List α)) (st : σ) :
    (∀ (h0 : α) (hs' : List α),
      cursors.mapM List.head? = some (h0 :: hs') →
      ¬ (fast && (h0 :: hs').all (fun x => decide (val x = val h0))) = true →
      ¬ ((h0 :: hs').all (fun x => decide (key x = key h0))) = true →
      mergeLoopFuel key val fast act (fuel + 1) cursors st =
        mergeLoopFuel key val fast act fuel
          (dropHeadAt cursors (findMinIdx key hs' (key h0) 0 1)) st ∧
      findMinIdx key hs' (key h0) 0 1 < cursors.length ∧
      ∀ x ∈ h0 :: hs',
        key ((h0 :: hs').getD (findMinIdx key hs' (key h0) 0 1) h0) ≤ key x) ∧
    (∀ (fuel2 : Nat) (act' : List α → σ → Option σ),
      (∀ g st2, List.Forall₂ (fun (c : List α) (x : α) => x ∈ c) cursors g →
        (∀ x ∈ g, ∀ y ∈ g, key x = key y) → act g st2 = act' g st2) →
      mergeLoopFuel key val fast act fuel2 cursors st =
        mergeLoopFuel key val fast act' fuel2 cursors st) ∧
    (∀ (k : List Char) (g : List α),
      (∃ c ∈ cursors, k ∉ c.map key) →
      List.Forall₂ (fun (c : List α) (x : α) => x ∈ c) cursors g →
      ¬ (∀ x ∈ g, key x = k)) := by
  refine ⟨?_, ?_, ?_⟩
  · intro h0 hs' hheads hfastno halignno
    have hf := (mapM_head?_some_iff cursors (h0 :: hs')).mp hheads
    have hlen : cursors.length = (h0 :: hs').length := List.Forall₂.length_eq hf
    have hspec := findMinIdx_spec key h0 (h0 :: hs') (h0 :: hs').length 1
      (key h0) 0 (by omega) (by simp) (by simp) (by
        intro x hx
        simp only [List.take_succ_cons, List.take_zero] at hx
        rw [List.mem_singleton.mp hx])
    simp only [List.drop_one, List.tail_cons] at hspec
    refine ⟨?_, ?_, ?_⟩
    · simp only [mergeLoopFuel, hheads]
      rw [if_neg hfastno, if_neg halignno, List.tail_cons]
    · rw [hlen]
      exact hspec.1
    · exact hspec.2
  · intro fuel2 act' hcong
    exact mergeLoopFuel_act_congr key val fast act act' fuel2 cursors st hcong
  · intro k g hex hmem hall
    obtain ⟨c, hc, hnotmem⟩ := hex
    obtain ⟨x, hxg, hcx⟩ := forall₂_exists_right _ cursors g hmem c hc
    exact hnotmem (hall x hxg ▸ List.mem_map_of_mem key hcx)

/-- Witness for C4 at the tests-level loop of `walkTrees`: browser 1's
current test is `a`, browser 2's is `b` with a different blob, so the fast
path does not fire, the keys are misaligned, and only the cursor at `a`
advances; the name `a`, absent from browser 2, forms no scorable group. -/
theorem claim_C4_witness :
    (mergeLoopFuel (fun (p : String × TestResult) => nameKey p.1) Prod.snd true
      (fun g st => some (scoreTest (g.map Prod.snd) st)) (5 + 1)
      [[("a", TestResult.mk "PASS" none), ("b", TestResult.mk "FAIL" none)],
       [("b", TestResult.mk "FAIL" none)]] [0, 0] =
      mergeLoopFuel (fun (p : String × TestResult) => nameKey p.1) Prod.snd true
        (fun g st => some (scoreTest (g.map Prod.snd) st)) 5
        (dropHeadAt
          [[("a", TestResult.mk "PASS" none), ("b", TestResult.mk "FAIL" none)],
           [("b", TestResult.mk "FAIL" none)]]
          (findMinIdx (fun (p : String × TestResult) => nameKey p.1)
            [("b", TestResult.mk "FAIL" none)]
            (nameKey ("a", TestResult.mk "PASS" none).1) 0 1)) [0, 0] ∧
     findMinIdx (fun (p : String × TestResult) => nameKey p.1)
       [("b", TestResult.mk "FAIL" none)]
       (nameKey ("a", TestResult.mk "PASS" none).1) 0 1 <
       ([[("a", TestResult.mk "PASS" none), ("b", TestResult.mk "FAIL" none)],
         [("b", TestResult.mk "FAIL" none)]] :
         List (List (String × TestResult))).length ∧
     (∀ x ∈ [("a", TestResult.mk "PASS" none), ("b", TestResult.mk "FAIL" none)],
       (fun (p : String × TestResult) => nameKey p.1)
         ([("a", TestResult.mk "PASS" none),
           ("b", TestResult.mk "FAIL" none)].getD
           (findMinIdx (fun (p : String × TestResult) => nameKey p.1)
             [("b", TestResult.mk "FAIL" none)]
             (nameKey ("a", TestResult.mk "PASS" none).1) 0 1)
           ("a", TestResult.mk "PASS" none)) ≤
         (fun (p : String × TestResult) => nameKey p.1) x)) ∧
    (mergeLoopFuel (fun (p : String × TestResult) => nameKey p.1) Prod.snd true
      (fun g st => some (scoreTest (g.map Prod.snd) st)) 6
      [[("a", TestResult.mk "PASS" none), ("b", TestResult.mk "FAIL" none)],
       [("b", TestResult.mk "FAIL" none)]] [0, 0] =
      mergeLoopFuel (fun (p : String × TestResult) => nameKey p.1) Prod.snd true
        (fun g st => some (scoreTest (g.map Prod.snd) st)) 6
        [[("a", TestResult.mk "PASS" none), ("b", TestResult.mk "FAIL" none)],
         [("b", TestResult.mk "FAIL" none)]] [0, 0]) ∧
    ¬ (∀ x ∈ ([("a", TestResult.mk "PASS" none), ("b", TestResult.mk "FAIL" none)] :
        List (String × TestResult)),
      (fun (p : String × TestResult) => nameKey p.1) x = nameKey "a") := by
  have h := claim_C4 (fun (p : String × TestResult) => nameKey p.1) Prod.snd true
    (fun g st => some (scoreTest (g.map Prod.snd) st)) 5
    [[("a", TestResult.mk "PASS" none), ("b", TestResult.mk "FAIL" none)],
     [("b", TestResult.mk "FAIL" none)]] [0, 0]
  exact ⟨h.1 ("a", TestResult.mk "PASS" none) [("b", TestResult.mk "FAIL" none)]
      (by rfl) (by decide) (by decide),
    h.2.1 6 (fun g st => some (scoreTest (g.map Prod.snd) st))
      (fun g st2 _ _ => rfl),
    h.2.2 (nameKey "a")
      [("a", TestResult.mk "PASS" none), ("b", TestResult.mk "FAIL" none)]
      ⟨[("b", TestResult.mk "FAIL" none)], by decide, by decide⟩
      (List.Forall₂.cons (by decide)
        (List.Forall₂.cons (by decide) List.Forall₂.nil))⟩
